import Mathlib

/-!
Blob tracking (MoCapProject4.cpp): nearest-neighbour matching and identity lifecycle.

A shallow embedding of `BlobTrackingApp::blobTracking`, `updateBlobList`,
`createBlobs`, `blobDetection` and `update` from `src/MoCapProject4.cpp`.

Modelling conventions.

* `float` values (key point coordinates, sizes, distances) are finite floats and are
  carried as rationals; every finite float is a rational number.
* `ci::distance` belongs to the Cinder/glm library and is not part of the repository.
  It is a parameter `distance : KeyPoint → KeyPoint → ℚ` of the embedding, so every
  theorem holds for whatever value the library computes (rounded or exact).
  `euclid` is one concrete instance, used to evaluate the code on explicit inputs.
* `std::vector` is a `List`; `v[i]` outside the bounds of `v` is undefined behaviour in
  C++ and makes the embedded function return `none`.
* `int` is `Int`; `newBlobID++` is `+ 1`. The source counter is a 32-bit `int`, whose
  increment overflows at `2^31 - 1` (undefined behaviour in C++); the embedding agrees
  with the code as long as the counter stays below `2^31`. The theorems on the ids
  given at birth (C3, C6) carry that bound as a hypothesis and conclude that the
  counter stays in the range of `int`.
* The blob detector, the camera and the OSC sender are external: the key points found
  by `mBlobDetector->detect` and the answer of `mCapture->checkNewFrame()` are inputs
  of `update`, the OSC messages sent are an output.
-/

namespace BlobTrackingApp

/-- The part of `cv::KeyPoint` the program reads: the centre `pt = (x, y)` and `size`. -/
structure KeyPoint where
  x : ℚ
  y : ℚ
  size : ℚ
deriving DecidableEq

/-- Modelled from the spec: `Blob.h` is not among the sources. A track is an identity
and an ordered history of observations, oldest first; the current observation is the
last element of the history. -/
structure Blob where
  id : Int
  keyPoints : List KeyPoint
deriving DecidableEq

/-- Modelled from the spec: the constructor `Blob(keyPoint, id)` of the absent `Blob.h`;
a new track has the given id and the history `[keyPoint]`. -/
def Blob.new (kp : KeyPoint) (id : Int) : Blob :=
  { id := id, keyPoints := [kp] }

/-- Modelled from the spec: `Blob::update` of the absent `Blob.h`; a continued track gets
the observation appended to its history and keeps its id. -/
def Blob.update (b : Blob) (kp : KeyPoint) : Blob :=
  { b with keyPoints := b.keyPoints ++ [kp] }

/-- Modelled from the spec: `Blob::getBlobID` of the absent `Blob.h`. -/
def Blob.getBlobID (b : Blob) : Int := b.id

/-- Modelled from the spec: `Blob::getCurrX` of the absent `Blob.h`; the x coordinate of
the last observation of the history. -/
def Blob.getCurrX (b : Blob) : ℚ :=
  match b.keyPoints.getLast? with
  | some kp => kp.x
  | none => 0

/-- Modelled from the spec: `Blob::getCurrY` of the absent `Blob.h`; the y coordinate of
the last observation of the history. -/
def Blob.getCurrY (b : Blob) : ℚ :=
  match b.keyPoints.getLast? with
  | some kp => kp.y
  | none => 0

/-- The tracker fields of `BlobTrackingApp`. `mSurface` records whether the surface
pointer is non-null (a camera frame has been received). -/
structure App where
  mSurface : Bool
  mKeyPoints : List KeyPoint
  mPrevKeyPoints : List KeyPoint
  mBlobs : List Blob
  mMapPrevToCurKeypoints : List Int
  newBlobID : Int
deriving DecidableEq

/-- The state after the constructor and `setup()`: empty vectors, null surface,
`newBlobID = 0`. -/
def setup : App :=
  { mSurface := false, mKeyPoints := [], mPrevKeyPoints := [], mBlobs := [],
    mMapPrevToCurKeypoints := [], newBlobID := 0 }

/-- A concrete distance: the square root, truncated as `Rat.sqrt` does, of
`dx^2 + dy^2`. It is not `ci::distance`: it equals the Euclidean distance, and the
`float` the library computes, only where `dx^2 + dy^2` is the square of a rational, and
differs from it elsewhere. It is evaluated only at such inputs, and no general theorem
depends on it. -/
def euclid (a b : KeyPoint) : ℚ :=
  Rat.sqrt ((a.x - b.x) * (a.x - b.x) + (a.y - b.y) * (a.y - b.y))

/-- Lines 268-274 of `blobDetection`: returns at once when there is no surface, else
saves the current key points as the previous ones and stores the detector's output. -/
def blobDetection (s : App) (detected : List KeyPoint) : App :=
  if s.mSurface = false then s
  else { s with mPrevKeyPoints := s.mKeyPoints, mKeyPoints := detected }

/-- The inner loop of `blobTracking` (lines 319-328) from index `j` on, with the running
`closestDistance` and `indexOfClosestDistance`. -/
def closestLoop (distance : KeyPoint → KeyPoint → ℚ) (kp : KeyPoint) :
    List KeyPoint → Nat → ℚ → Int → Int
  | [], _, _, indexOfClosestDistance => indexOfClosestDistance
  | prev :: rest, j, closestDistance, indexOfClosestDistance =>
    let newDistance := distance kp prev
    if newDistance < closestDistance then
      closestLoop distance kp rest (j + 1) newDistance (j : Int)
    else
      closestLoop distance kp rest (j + 1) closestDistance indexOfClosestDistance

/-- One iteration of the outer loop of `blobTracking` (lines 316-330): the entry pushed
for the current key point `kp`. -/
def closestIndex (distance : KeyPoint → KeyPoint → ℚ) (mPrevKeyPoints : List KeyPoint)
    (kp : KeyPoint) : Int :=
  closestLoop distance kp mPrevKeyPoints 0 100 (-1)

/-- The function `blobTracking` (lines 310-332): clears the map, then pushes one entry
per current key point. -/
def blobTracking (distance : KeyPoint → KeyPoint → ℚ) (s : App) : App :=
  { s with mMapPrevToCurKeypoints :=
      s.mKeyPoints.map (closestIndex distance s.mPrevKeyPoints) }

/-- The loop of `updateBlobList` (lines 341-354) from index `i` on, over the remaining
map entries; `none` when a vector is indexed out of its bounds. `newBlobID++` is `+ 1`
on `Int`, which is what the 32-bit counter does while it stays below `2^31`. -/
def updateBlobListLoop (mKeyPoints : List KeyPoint) (mPrevBlobs : List Blob) :
    List Int → Nat → List Blob → Int → Option (List Blob × Int)
  | [], _, mBlobs, newBlobID => some (mBlobs, newBlobID)
  | data :: rest, i, mBlobs, newBlobID =>
    if data = -1 then
      match mKeyPoints[i]? with
      | none => none
      | some kp =>
        updateBlobListLoop mKeyPoints mPrevBlobs rest (i + 1)
          (mBlobs ++ [Blob.new kp newBlobID]) (newBlobID + 1)
    else if data < 0 then none
    else
      match mPrevBlobs[data.toNat]? with
      | none => none
      | some b =>
        let pushed := mBlobs ++ [b]
        match pushed[i]?, mKeyPoints[i]? with
        | some bi, some kp =>
          updateBlobListLoop mKeyPoints mPrevBlobs rest (i + 1)
            (pushed.set i (bi.update kp)) newBlobID
        | _, _ => none

/-- The function `updateBlobList` (lines 336-355). -/
def updateBlobList (s : App) : Option App :=
  match updateBlobListLoop s.mKeyPoints s.mBlobs s.mMapPrevToCurKeypoints 0 [] s.newBlobID with
  | none => none
  | some (mBlobs, newBlobID) => some { s with mBlobs := mBlobs, newBlobID := newBlobID }

/-- The loop of `createBlobs` (lines 363-367). -/
def createBlobsLoop : List KeyPoint → List Blob → Int → List Blob × Int
  | [], mBlobs, newBlobID => (mBlobs, newBlobID)
  | kp :: rest, mBlobs, newBlobID =>
    createBlobsLoop rest (mBlobs ++ [Blob.new kp newBlobID]) (newBlobID + 1)

/-- The function `createBlobs` (lines 358-368): clears the blobs, sets `newBlobID = 0`,
then creates one blob per current key point. -/
def createBlobs (s : App) : App :=
  let r := createBlobsLoop s.mKeyPoints [] 0
  { s with mBlobs := r.1, newBlobID := r.2 }

/-- An OSC message `(address, id, x, y)` as built by the four-argument `sendOSC`. -/
structure OscMessage where
  addr : String
  ind : ℚ
  x : ℚ
  y : ℚ
deriving DecidableEq

/-- The address `BLOB_OSCADDRESS`. -/
def BLOB_OSCADDRESS : String := "/MakeItArt/Blobs"

/-- The messages sent by the loop at lines 300-302: one per blob, in order. The casts
to `float` are taken to be exact (an id below `2^24`). -/
def sendBlobs (mBlobs : List Blob) : List OscMessage :=
  mBlobs.map (fun b =>
    { addr := BLOB_OSCADDRESS, ind := (b.getBlobID : ℚ), x := b.getCurrX, y := b.getCurrY })

/-- The function `update` (lines 277-303). `newFrame` is the value of
`mCapture && mCapture->checkNewFrame()`, `detected` is what the detector finds in the
frame. The result is the next state and the OSC messages sent. -/
def update (distance : KeyPoint → KeyPoint → ℚ) (s : App) (newFrame : Bool)
    (detected : List KeyPoint) : Option (App × List OscMessage) :=
  let s1 := if newFrame then { s with mSurface := true } else s
  if s1.mSurface = false then some (s1, [])
  else
    match updateBlobList (blobTracking distance (blobDetection s1 detected)) with
    | none => none
    | some s4 => some (s4, sendBlobs s4.mBlobs)

/-- One per-frame step: an `update` tick on which the camera delivers a frame. -/
def step (distance : KeyPoint → KeyPoint → ℚ) (s : App) (detected : List KeyPoint) :
    Option App :=
  (update distance s true detected).map Prod.fst

/-- A run of per-frame steps, one per list of detected key points. -/
def run (distance : KeyPoint → KeyPoint → ℚ) : App → List (List KeyPoint) → Option App
  | s, [] => some s
  | s, frame :: frames =>
    match step distance s frame with
    | none => none
    | some s1 => run distance s1 frames

/-- The states the tracker can be in: the state after `setup`, and every state obtained
from such a state by a per-frame step that completes or by `createBlobs`. -/
inductive Reachable (distance : KeyPoint → KeyPoint → ℚ) : App → Prop
  | setup : Reachable distance setup
  | step (s s1 : App) (detected : List KeyPoint) :
      Reachable distance s → step distance s detected = some s1 → Reachable distance s1
  | createBlobs (s : App) : Reachable distance s → Reachable distance (createBlobs s)

/-- The ids of the blobs born in the step that produced `s`, in the order of their
creation: the blobs at the positions where the map holds `-1` (line 345). -/
def bornIDs (s : App) : List Int :=
  ((s.mBlobs.zip s.mMapPrevToCurKeypoints).filter (fun p => decide (p.2 = -1))).map
    (fun p => p.1.id)

/-- The ids given to the blobs born during a run, in the order of the births. -/
def births (distance : KeyPoint → KeyPoint → ℚ) : App → List (List KeyPoint) → List Int
  | _, [] => []
  | s, frame :: frames =>
    match step distance s frame with
    | none => []
    | some s1 => bornIDs s1 ++ births distance s1 frames

/-- No previous index occurs twice in the map: no two current key points of the frame
were matched to the same previous key point. -/
def matchedOnce (s : App) : Prop :=
  (s.mMapPrevToCurKeypoints.filter (fun e => decide (e ≠ -1))).Nodup

/-- Every step of the run succeeds and matches no previous key point twice. -/
def exclusive (distance : KeyPoint → KeyPoint → ℚ) : App → List (List KeyPoint) → Prop
  | _, [] => True
  | s, frame :: frames =>
    match step distance s frame with
    | none => False
    | some s1 => matchedOnce s1 ∧ exclusive distance s1 frames

instance (s : App) : Decidable (matchedOnce s) :=
  inferInstanceAs (Decidable (List.Nodup _))

/-- Whether a run is exclusive can be computed. -/
def exclusive.decide (distance : KeyPoint → KeyPoint → ℚ) :
    ∀ (s : App) (frames : List (List KeyPoint)), Decidable (exclusive distance s frames)
  | _, [] => isTrue trivial
  | s, frame :: frames =>
    match h : step distance s frame with
    | none => isFalse (by simp [exclusive, h])
    | some s1 =>
      have := exclusive.decide distance s1 frames
      decidable_of_iff (matchedOnce s1 ∧ exclusive distance s1 frames) (by simp [exclusive, h])

instance (distance : KeyPoint → KeyPoint → ℚ) (s : App) (frames : List (List KeyPoint)) :
    Decidable (exclusive distance s frames) :=
  exclusive.decide distance s frames

/-! ## The matcher: `blobTracking` -/

/-- What the inner loop of `blobTracking` returns when started at index `j` with the
running minimum `cd` and the running index `idx`: either nothing in the rest is closer
than `cd` and the index is unchanged, or the result is the first position of the rest
holding the least distance, and that distance is below `cd`. -/
theorem closestLoop_spec (distance : KeyPoint → KeyPoint → ℚ) (c : KeyPoint) :
    ∀ (rest : List KeyPoint) (j : Nat) (cd : ℚ) (idx : Int),
      (closestLoop distance c rest j cd idx = idx ∧ ∀ p ∈ rest, cd ≤ distance c p) ∨
      (∃ (k : Nat) (p : KeyPoint), rest[k]? = some p ∧
        closestLoop distance c rest j cd idx = ((j + k : Nat) : Int) ∧
        distance c p < cd ∧
        (∀ q ∈ rest, distance c p ≤ distance c q) ∧
        (∀ (k' : Nat) (q : KeyPoint), k' < k → rest[k']? = some q →
          distance c p < distance c q)) := by
  intro rest
  induction rest with
  | nil =>
    intro j cd idx
    left
    simp [closestLoop]
  | cons p rest ih =>
    intro j cd idx
    by_cases hlt : distance c p < cd
    · have hstep : closestLoop distance c (p :: rest) j cd idx
          = closestLoop distance c rest (j + 1) (distance c p) (j : Int) := by
        simp [closestLoop, hlt]
      rcases ih (j + 1) (distance c p) (j : Int) with ⟨hres, hall⟩ | ⟨k, q, hq, hres, hd, hmin, hfirst⟩
      · right
        refine ⟨0, p, by simp, ?_, hlt, ?_, ?_⟩
        · rw [hstep, hres]; simp
        · intro q hq
          rcases List.mem_cons.mp hq with rfl | hq
          · exact le_refl _
          · exact hall q hq
        · intro k' q hk'
          omega
      · right
        refine ⟨k + 1, q, by simpa using hq, ?_, lt_trans hd hlt, ?_, ?_⟩
        · rw [hstep, hres]
          congr 1
          omega
        · intro r hr
          rcases List.mem_cons.mp hr with rfl | hr
          · exact le_of_lt hd
          · exact hmin r hr
        · intro k' r hk' hr
          cases k' with
          | zero =>
            simp at hr
            subst hr
            exact hd
          | succ k' =>
            simp at hr
            exact hfirst k' r (by omega) hr
    · have hstep : closestLoop distance c (p :: rest) j cd idx
          = closestLoop distance c rest (j + 1) cd idx := by
        simp [closestLoop, hlt]
      have hge : cd ≤ distance c p := not_lt.mp hlt
      rcases ih (j + 1) cd idx with ⟨hres, hall⟩ | ⟨k, q, hq, hres, hd, hmin, hfirst⟩
      · left
        refine ⟨by rw [hstep, hres], ?_⟩
        intro q hq
        rcases List.mem_cons.mp hq with rfl | hq
        · exact hge
        · exact hall q hq
      · right
        refine ⟨k + 1, q, by simpa using hq, ?_, hd, ?_, ?_⟩
        · rw [hstep, hres]
          congr 1
          omega
        · intro r hr
          rcases List.mem_cons.mp hr with rfl | hr
          · exact le_of_lt (lt_of_lt_of_le hd hge)
          · exact hmin r hr
        · intro k' r hk' hr
          cases k' with
          | zero =>
            simp at hr
            subst hr
            exact lt_of_lt_of_le hd hge
          | succ k' =>
            simp at hr
            exact hfirst k' r (by omega) hr

/-- An entry of the map is `-1` or the index of a previous key point. -/
theorem closestIndex_range (distance : KeyPoint → KeyPoint → ℚ) (prev : List KeyPoint)
    (c : KeyPoint) :
    closestIndex distance prev c = -1 ∨
      (0 ≤ closestIndex distance prev c ∧ (closestIndex distance prev c).toNat < prev.length) := by
  unfold closestIndex
  rcases closestLoop_spec distance c prev 0 100 (-1) with ⟨h, _⟩ | ⟨k, p, hp, h, _⟩
  · left; exact h
  · right
    have hk : k < prev.length := (List.getElem?_eq_some_iff.mp hp).1
    rw [h]
    constructor
    · exact Int.ofNat_nonneg _
    · simp
      exact hk

/-- With no previous key point every entry of the map is `-1`. -/
theorem closestIndex_nil (distance : KeyPoint → KeyPoint → ℚ) (c : KeyPoint) :
    closestIndex distance [] c = -1 := by
  simp [closestIndex, closestLoop]

/-- With one previous key point the entry is 0 when it is closer than 100, else `-1`. -/
theorem closestIndex_single (distance : KeyPoint → KeyPoint → ℚ) (p c : KeyPoint) :
    closestIndex distance [p] c = if distance c p < 100 then 0 else -1 := by
  by_cases h : distance c p < 100 <;> simp [closestIndex, closestLoop, h]

/-- A tie keeps the candidate found first: of two previous key points at the same
distance below 100 the entry is the index of the first. -/
theorem closestIndex_tie (distance : KeyPoint → KeyPoint → ℚ) (p1 p2 c : KeyPoint)
    (h1 : distance c p1 < 100) (h2 : distance c p2 = distance c p1) :
    closestIndex distance [p1, p2] c = 0 := by
  simp [closestIndex, closestLoop, h1, h2]

/-- C1. `blobTracking` changes nothing but the map; the map has one entry per current
key point, in the same order; entry `i` is `-1` when no previous key point is at a
distance below 100 from current key point `i` (so whenever there is no previous key
point), and otherwise it is the smallest index `j` of a previous key point whose
distance to current key point `i` is the least over all previous key points, that
least distance being below 100. -/
theorem blobTracking_nearest (distance : KeyPoint → KeyPoint → ℚ) (s : App) :
    (blobTracking distance s).mKeyPoints = s.mKeyPoints ∧
    (blobTracking distance s).mPrevKeyPoints = s.mPrevKeyPoints ∧
    (blobTracking distance s).mBlobs = s.mBlobs ∧
    (blobTracking distance s).newBlobID = s.newBlobID ∧
    (blobTracking distance s).mMapPrevToCurKeypoints.length = s.mKeyPoints.length ∧
    ∀ (i : Nat) (c : KeyPoint), s.mKeyPoints[i]? = some c →
      ∃ e : Int, (blobTracking distance s).mMapPrevToCurKeypoints[i]? = some e ∧
        (s.mPrevKeyPoints = [] → e = -1) ∧
        ((e = -1 ∧ ∀ p ∈ s.mPrevKeyPoints, 100 ≤ distance c p) ∨
         (∃ (j : Nat) (p : KeyPoint), e = (j : Int) ∧ s.mPrevKeyPoints[j]? = some p ∧
            distance c p < 100 ∧
            (∀ q ∈ s.mPrevKeyPoints, distance c p ≤ distance c q) ∧
            (∀ (j' : Nat) (q : KeyPoint), j' < j → s.mPrevKeyPoints[j']? = some q →
              distance c p < distance c q))) := by
  refine ⟨rfl, rfl, rfl, rfl, by simp [blobTracking], ?_⟩
  intro i c hc
  refine ⟨closestIndex distance s.mPrevKeyPoints c, by simp [blobTracking, hc], ?_, ?_⟩
  · intro hnil
    simp [hnil, closestIndex, closestLoop]
  · unfold closestIndex
    rcases closestLoop_spec distance c s.mPrevKeyPoints 0 100 (-1) with
      ⟨h, hall⟩ | ⟨k, p, hp, h, hd, hmin, hfirst⟩
    · left; exact ⟨h, hall⟩
    · right
      exact ⟨k, p, by simpa using h, hp, hd, hmin, hfirst⟩

/-! ## The reconciliation loop: `updateBlobList` -/

/-- Pushing `b` on a vector of size `i` and then updating element `i` touches exactly
the element pushed. -/
theorem push_then_update (acc : List Blob) (b x : Blob) (i : Nat) (h : acc.length = i) :
    (acc ++ [b])[i]? = some b ∧ (acc ++ [b]).set i x = acc ++ [x] := by
  subst h
  constructor
  · simp
  · simp [List.set_append]

/-- One iteration of the loop of `updateBlobList` on a birth entry. -/
theorem updateBlobListLoop_birth (kps : List KeyPoint) (prev : List Blob) (rest : List Int)
    (i : Nat) (acc : List Blob) (nb : Int) :
    updateBlobListLoop kps prev ((-1) :: rest) i acc nb =
      match kps[i]? with
      | none => none
      | some kp => updateBlobListLoop kps prev rest (i + 1) (acc ++ [Blob.new kp nb]) (nb + 1) := by
  simp [updateBlobListLoop]

/-- One iteration of the loop of `updateBlobList` on a matched entry, when the vector
built so far has size `i`. -/
theorem updateBlobListLoop_match (kps : List KeyPoint) (prev : List Blob) (data : Int)
    (rest : List Int) (i : Nat) (acc : List Blob) (nb : Int) (hd : data ≠ -1)
    (hacc : acc.length = i) :
    updateBlobListLoop kps prev (data :: rest) i acc nb =
      if data < 0 then none
      else
        match prev[data.toNat]?, kps[i]? with
        | some b, some kp => updateBlobListLoop kps prev rest (i + 1) (acc ++ [b.update kp]) nb
        | _, _ => none := by
  rw [updateBlobListLoop]
  simp only [hd, if_false]
  by_cases hneg : data < 0
  · simp [hneg]
  · simp only [hneg, if_false]
    cases hb : prev[data.toNat]? with
    | none => simp
    | some b =>
      have hp := push_then_update acc b (b.update (kps[i]?.getD ⟨0, 0, 0⟩)) i hacc
      cases hk : kps[i]? with
      | none => simp [hp.1]
      | some kp =>
        have hp2 := push_then_update acc b (b.update kp) i hacc
        simp [hp2.1, hp2.2]

/-- The loop of `updateBlobList` succeeds when the key points reach as far as the map
and every entry is `-1` or an index into the previous blobs. -/
theorem updateBlobListLoop_isSome (kps : List KeyPoint) (prev : List Blob) :
    ∀ (map : List Int) (i : Nat) (acc : List Blob) (nb : Int),
      acc.length = i → i + map.length ≤ kps.length →
      (∀ e ∈ map, e = -1 ∨ (0 ≤ e ∧ e.toNat < prev.length)) →
      ∃ r, updateBlobListLoop kps prev map i acc nb = some r := by
  intro map
  induction map with
  | nil =>
    intro i acc nb _ _ _
    exact ⟨(acc, nb), by simp [updateBlobListLoop]⟩
  | cons data rest ih =>
    intro i acc nb hacc hlen hmap
    have hi : i < kps.length := by simp at hlen; omega
    have hrest : ∀ e ∈ rest, e = -1 ∨ (0 ≤ e ∧ e.toNat < prev.length) :=
      fun e he => hmap e (List.mem_cons_of_mem _ he)
    have hlen2 : i + 1 + rest.length ≤ kps.length := by simp at hlen; omega
    by_cases hd : data = -1
    · subst hd
      rw [updateBlobListLoop_birth, List.getElem?_eq_getElem hi]
      exact ih (i + 1) _ (nb + 1) (by simp [hacc]) hlen2 hrest
    · rcases hmap data (List.mem_cons_self _ _) with h | ⟨h0, hlt⟩
      · exact absurd h hd
      · rw [updateBlobListLoop_match kps prev data rest i acc nb hd hacc,
          List.getElem?_eq_getElem hi, List.getElem?_eq_getElem hlt]
        simp only [not_lt.mpr h0, if_false]
        exact ih (i + 1) _ nb (by simp [hacc]) hlen2 hrest

/-- What the loop of `updateBlobList` builds: it extends the vector by one blob per map
entry and raises the id counter by the number of births. Entry `k` of the extension is
a new blob holding key point `i + k` and the id counter as it stands after the births
among the earlier entries, when the map entry is `-1`; otherwise it is the previous
blob at the map entry, updated with key point `i + k`. -/
theorem updateBlobListLoop_spec (kps : List KeyPoint) (prev : List Blob) :
    ∀ (map : List Int) (i : Nat) (acc : List Blob) (nb : Int) (bs : List Blob) (n : Int),
      acc.length = i → updateBlobListLoop kps prev map i acc nb = some (bs, n) →
      ∃ tail, bs = acc ++ tail ∧ tail.length = map.length ∧
        n = nb + ((map.count (-1) : Nat) : Int) ∧
        ∀ (k : Nat) (e : Int), map[k]? = some e →
          ∃ kp, kps[i + k]? = some kp ∧
            ((e = -1 ∧
                tail[k]? = some (Blob.new kp (nb + (((map.take k).count (-1) : Nat) : Int)))) ∨
             (e ≠ -1 ∧ 0 ≤ e ∧ ∃ b, prev[e.toNat]? = some b ∧ tail[k]? = some (b.update kp))) := by
  intro map
  induction map with
  | nil =>
    intro i acc nb bs n _ h
    simp [updateBlobListLoop] at h
    exact ⟨[], by simp [h.1], rfl, by simp [h.2], by simp⟩
  | cons data rest ih =>
    intro i acc nb bs n hacc h
    by_cases hd : data = -1
    · subst hd
      rw [updateBlobListLoop_birth] at h
      cases hk : kps[i]? with
      | none => simp [hk] at h
      | some kp =>
        simp only [hk] at h
        obtain ⟨tail, hbs, hlen, hn, hel⟩ := ih (i + 1) _ (nb + 1) bs n (by simp [hacc]) h
        refine ⟨Blob.new kp nb :: tail, by simp [hbs], by simp [hlen], ?_, ?_⟩
        · rw [hn]; simp; ring
        · intro k e hke
          cases k with
          | zero =>
            simp at hke
            subst hke
            exact ⟨kp, by simpa using hk, Or.inl ⟨rfl, by simp⟩⟩
          | succ k =>
            simp at hke
            obtain ⟨kp2, hkp2, hcase⟩ := hel k e hke
            refine ⟨kp2, by rw [← hkp2]; congr 1; omega, ?_⟩
            rcases hcase with ⟨he, ht⟩ | ⟨he, h0, b, hb, ht⟩
            · left
              refine ⟨he, ?_⟩
              simp only [List.getElem?_cons_succ, ht, List.take_succ_cons, List.count_cons_self]
              congr 2
              push_cast
              ring
            · right
              exact ⟨he, h0, b, hb, by simpa using ht⟩
    · rw [updateBlobListLoop_match kps prev data rest i acc nb hd hacc] at h
      by_cases hneg : data < 0
      · simp [hneg] at h
      · simp only [hneg, if_false] at h
        cases hb : prev[data.toNat]? with
        | none => simp [hb] at h
        | some b =>
          cases hk : kps[i]? with
          | none => simp [hb, hk] at h
          | some kp =>
            simp only [hb, hk] at h
            obtain ⟨tail, hbs, hlen, hn, hel⟩ := ih (i + 1) _ nb bs n (by simp [hacc]) h
            have hcount : (data :: rest).count (-1) = rest.count (-1) := by
              rw [List.count_cons_of_ne]
              exact fun h => hd h.symm
            refine ⟨b.update kp :: tail, by simp [hbs], by simp [hlen], ?_, ?_⟩
            · rw [hn, hcount]
            · intro k e hke
              cases k with
              | zero =>
                simp at hke
                subst hke
                exact ⟨kp, by simpa using hk,
                  Or.inr ⟨hd, not_lt.mp hneg, b, hb, by simp⟩⟩
              | succ k =>
                simp at hke
                obtain ⟨kp2, hkp2, hcase⟩ := hel k e hke
                refine ⟨kp2, by rw [← hkp2]; congr 1; omega, ?_⟩
                rcases hcase with ⟨he, ht⟩ | ⟨he, h0, b2, hb2, ht⟩
                · left
                  refine ⟨he, ?_⟩
                  have hc2 : ((data :: rest).take (k + 1)).count (-1) = (rest.take k).count (-1) := by
                    rw [List.take_succ_cons, List.count_cons_of_ne]
                    exact fun h => hd h.symm
                  simp only [List.getElem?_cons_succ, ht, hc2]
                · right
                  exact ⟨he, h0, b2, hb2, by simpa using ht⟩

/-- The state-level form of the loop: `updateBlobList` succeeds exactly when its loop
does, and stores the vector and counter the loop returns. -/
theorem updateBlobList_eq (s : App) :
    updateBlobList s =
      (updateBlobListLoop s.mKeyPoints s.mBlobs s.mMapPrevToCurKeypoints 0 [] s.newBlobID).map
        (fun r => { s with mBlobs := r.1, newBlobID := r.2 }) := by
  unfold updateBlobList
  cases updateBlobListLoop s.mKeyPoints s.mBlobs s.mMapPrevToCurKeypoints 0 [] s.newBlobID with
  | none => rfl
  | some r => rfl

/-! ## The per-frame step -/

/-- A step keeps the detector's output as current key points, hands the old key points
over as previous ones, recomputes the map and runs the loop of `updateBlobList` on the
blobs of the previous frame. -/
theorem step_eq (distance : KeyPoint → KeyPoint → ℚ) (s : App) (detected : List KeyPoint) :
    step distance s detected =
      (updateBlobListLoop detected s.mBlobs
          (detected.map (closestIndex distance s.mKeyPoints)) 0 [] s.newBlobID).map
        (fun r =>
          { mSurface := true, mKeyPoints := detected, mPrevKeyPoints := s.mKeyPoints,
            mBlobs := r.1,
            mMapPrevToCurKeypoints := detected.map (closestIndex distance s.mKeyPoints),
            newBlobID := r.2 }) := by
  simp only [step, update, if_true, blobDetection, blobTracking, updateBlobList_eq]
  cases h : updateBlobListLoop detected s.mBlobs
      (detected.map (closestIndex distance s.mKeyPoints)) 0 [] s.newBlobID with
  | none => simp [h]
  | some r => simp [h]

/-- A step from a state whose blobs are aligned with its key points succeeds, and its
result is described field by field. -/
theorem step_spec (distance : KeyPoint → KeyPoint → ℚ) (s : App) (detected : List KeyPoint)
    (hal : s.mBlobs.length = s.mKeyPoints.length) :
    ∃ s1, step distance s detected = some s1 ∧
      s1.mSurface = true ∧ s1.mKeyPoints = detected ∧ s1.mPrevKeyPoints = s.mKeyPoints ∧
      s1.mMapPrevToCurKeypoints = detected.map (closestIndex distance s.mKeyPoints) ∧
      s1.mBlobs.length = detected.length ∧
      s1.newBlobID = s.newBlobID + ((s1.mMapPrevToCurKeypoints.count (-1) : Nat) : Int) ∧
      ∀ (k : Nat) (e : Int), s1.mMapPrevToCurKeypoints[k]? = some e →
        ∃ kp, detected[k]? = some kp ∧
          ((e = -1 ∧ s1.mBlobs[k]? = some (Blob.new kp
              (s.newBlobID + (((s1.mMapPrevToCurKeypoints.take k).count (-1) : Nat) : Int)))) ∨
           (e ≠ -1 ∧ 0 ≤ e ∧ ∃ b, s.mBlobs[e.toNat]? = some b ∧
              s1.mBlobs[k]? = some (b.update kp))) := by
  have hvalid : ∀ e ∈ detected.map (closestIndex distance s.mKeyPoints),
      e = -1 ∨ (0 ≤ e ∧ e.toNat < s.mBlobs.length) := by
    intro e he
    obtain ⟨c, _, rfl⟩ := List.mem_map.mp he
    rw [hal]
    exact closestIndex_range distance s.mKeyPoints c
  obtain ⟨r, hr⟩ := updateBlobListLoop_isSome detected s.mBlobs
    (detected.map (closestIndex distance s.mKeyPoints)) 0 [] s.newBlobID rfl (by simp) hvalid
  obtain ⟨tail, hbs, hlen, hn, hel⟩ := updateBlobListLoop_spec detected s.mBlobs
    (detected.map (closestIndex distance s.mKeyPoints)) 0 [] s.newBlobID r.1 r.2 rfl hr
  simp only [List.nil_append] at hbs
  refine ⟨_, by rw [step_eq, hr]; rfl, rfl, rfl, rfl, rfl, ?_, hn, ?_⟩
  · show r.1.length = detected.length
    rw [hbs, hlen]; simp
  · intro k e hke
    obtain ⟨kp, hkp, hcase⟩ := hel k e hke
    rw [← hbs] at hcase
    exact ⟨kp, by simpa using hkp, hcase⟩

/-! ## Counting births -/

/-- An occurrence of `a` at position `k1` is counted in every longer prefix. -/
theorem count_take_lt (a : Int) :
    ∀ (l : List Int) (k1 k2 : Nat), l[k1]? = some a → k1 < k2 →
      (l.take k1).count a < (l.take k2).count a := by
  intro l
  induction l with
  | nil => intro k1 k2 h; simp at h
  | cons x l ih =>
    intro k1 k2 h hk
    obtain ⟨k2, rfl⟩ : ∃ m, k2 = m + 1 := ⟨k2 - 1, by omega⟩
    cases k1 with
    | zero =>
      simp at h
      subst h
      simp
    | succ k1 =>
      simp at h
      have := ih k1 k2 h (by omega)
      simp only [List.take_succ_cons, List.count_cons]
      omega

/-- An occurrence of `a` at position `k` is not counted in the prefix before it. -/
theorem count_take_lt_count (a : Int) (l : List Int) (k : Nat) (h : l[k]? = some a) :
    (l.take k).count a < l.count a := by
  have hk : k < l.length := (List.getElem?_eq_some_iff.mp h).1
  have := count_take_lt a l k l.length h hk
  simpa using this

/-- Two entries of a list that survive a filter whose result has no duplicates are
different. -/
theorem filter_nodup_ne (p : Int → Bool) :
    ∀ (l : List Int) (k1 k2 : Nat) (e1 e2 : Int), (l.filter p).Nodup →
      l[k1]? = some e1 → l[k2]? = some e2 → k1 < k2 → p e1 = true → p e2 = true → e1 ≠ e2 := by
  intro l
  induction l with
  | nil => intro k1 k2 e1 e2 _ h; simp at h
  | cons x l ih =>
    intro k1 k2 e1 e2 hnd h1 h2 hk hp1 hp2
    obtain ⟨k2, rfl⟩ : ∃ m, k2 = m + 1 := ⟨k2 - 1, by omega⟩
    simp at h2
    cases k1 with
    | zero =>
      simp at h1
      subst h1
      rw [List.filter_cons_of_pos hp1] at hnd
      intro heq
      subst heq
      have hmem : x ∈ l.filter p :=
        List.mem_filter.mpr ⟨List.mem_iff_getElem?.mpr ⟨_, h2⟩, hp1⟩
      exact (List.nodup_cons.mp hnd).1 hmem
    | succ k1 =>
      simp at h1
      have hnd2 : (l.filter p).Nodup := by
        by_cases hx : p x = true
        · rw [List.filter_cons_of_pos hx] at hnd
          exact (List.nodup_cons.mp hnd).2
        · rw [List.filter_cons_of_neg hx] at hnd
          exact hnd
      exact ih k1 k2 e1 e2 hnd2 h1 h2 (by omega) hp1 hp2

/-! ## Invariants of the per-frame step -/

/-- After a step every blob is either born in the step, with an id at or above the old
id counter and below the new one, or carries the id of a blob of the previous frame;
and the id counter does not decrease. -/
theorem step_ids (distance : KeyPoint → KeyPoint → ℚ) (s s1 : App) (detected : List KeyPoint)
    (hal : s.mBlobs.length = s.mKeyPoints.length) (hstep : step distance s detected = some s1) :
    s.newBlobID ≤ s1.newBlobID ∧
    ∀ b1 ∈ s1.mBlobs, (s.newBlobID ≤ b1.id ∧ b1.id < s1.newBlobID) ∨
      (∃ b ∈ s.mBlobs, b1.id = b.id) := by
  obtain ⟨s2, h2, _, hk, _, hmap, hlen, hn, hel⟩ := step_spec distance s detected hal
  rw [hstep] at h2
  cases h2
  constructor
  · rw [hn]; omega
  intro b1 hb1
  obtain ⟨k, hk1⟩ := List.mem_iff_getElem?.mp hb1
  have hklt : k < s1.mBlobs.length := (List.getElem?_eq_some_iff.mp hk1).1
  have hkm : k < s1.mMapPrevToCurKeypoints.length := by
    rw [hmap]; simp; omega
  obtain ⟨kp, _, hcase⟩ := hel k _ (List.getElem?_eq_getElem hkm)
  rcases hcase with ⟨he, hb⟩ | ⟨_, _, b, hb, hb2⟩
  · left
    rw [hk1] at hb
    cases hb
    have hc := count_take_lt_count (-1) s1.mMapPrevToCurKeypoints k
      (by rw [List.getElem?_eq_getElem hkm, he])
    simp only [Blob.new]
    rw [hn]
    omega
  · right
    rw [hk1] at hb2
    cases hb2
    exact ⟨b, List.mem_iff_getElem?.mpr ⟨_, hb⟩, rfl⟩

/-- The invariant of the tracker: blobs and key points are aligned, and every id in use
is below the id counter. -/
theorem step_invariant (distance : KeyPoint → KeyPoint → ℚ) (s s1 : App)
    (detected : List KeyPoint)
    (hal : s.mBlobs.length = s.mKeyPoints.length)
    (hid : ∀ b ∈ s.mBlobs, b.id < s.newBlobID)
    (hstep : step distance s detected = some s1) :
    s1.mBlobs.length = s1.mKeyPoints.length ∧ ∀ b ∈ s1.mBlobs, b.id < s1.newBlobID := by
  obtain ⟨s2, h2, _, hk, _, _, hlen, _, _⟩ := step_spec distance s detected hal
  rw [hstep] at h2
  cases h2
  obtain ⟨hmono, hids⟩ := step_ids distance s s1 detected hal hstep
  refine ⟨by rw [hlen, hk], ?_⟩
  intro b1 hb1
  rcases hids b1 hb1 with ⟨_, h⟩ | ⟨b, hb, h⟩
  · exact h
  · rw [h]
    exact lt_of_lt_of_le (hid b hb) hmono

/-- A run from an aligned state never fails, and it preserves the invariant. -/
theorem run_invariant (distance : KeyPoint → KeyPoint → ℚ) :
    ∀ (frames : List (List KeyPoint)) (s : App),
      s.mBlobs.length = s.mKeyPoints.length → (∀ b ∈ s.mBlobs, b.id < s.newBlobID) →
      ∃ s1, run distance s frames = some s1 ∧
        s1.mBlobs.length = s1.mKeyPoints.length ∧ (∀ b ∈ s1.mBlobs, b.id < s1.newBlobID) ∧
        s.newBlobID ≤ s1.newBlobID := by
  intro frames
  induction frames with
  | nil =>
    intro s hal hid
    exact ⟨s, rfl, hal, hid, le_refl _⟩
  | cons frame frames ih =>
    intro s hal hid
    obtain ⟨s2, h2, _⟩ := step_spec distance s frame hal
    obtain ⟨hal2, hid2⟩ := step_invariant distance s s2 frame hal hid h2
    obtain ⟨s3, h3, hal3, hid3, hle⟩ := ih s2 hal2 hid2
    refine ⟨s3, by simp [run, h2, h3], hal3, hid3, ?_⟩
    exact le_trans (step_ids distance s s2 frame hal h2).1 hle

/-- The state a run from a reachable state ends in is reachable. -/
theorem reachable_run (distance : KeyPoint → KeyPoint → ℚ) :
    ∀ (frames : List (List KeyPoint)) (s s1 : App),
      Reachable distance s → run distance s frames = some s1 → Reachable distance s1 := by
  intro frames
  induction frames with
  | nil =>
    intro s s1 hr hrun
    simp [run] at hrun
    subst hrun
    exact hr
  | cons frame frames ih =>
    intro s s1 hr hrun
    cases hs : step distance s frame with
    | none => simp [run, hs] at hrun
    | some s2 =>
      simp only [run, hs] at hrun
      exact ih s2 s1 (Reachable.step s s2 frame hr hs) hrun

/-! ## `createBlobs` and the reachable states -/

/-- What the loop of `createBlobs` builds: one new blob per key point, numbered from the
id counter on. -/
theorem createBlobsLoop_spec :
    ∀ (kps : List KeyPoint) (acc : List Blob) (nb : Int),
      ∃ tail, (createBlobsLoop kps acc nb).1 = acc ++ tail ∧ tail.length = kps.length ∧
        (createBlobsLoop kps acc nb).2 = nb + (kps.length : Int) ∧
        ∀ (k : Nat) (kp : KeyPoint), kps[k]? = some kp →
          tail[k]? = some (Blob.new kp (nb + (k : Int))) := by
  intro kps
  induction kps with
  | nil =>
    intro acc nb
    exact ⟨[], by simp [createBlobsLoop], rfl, by simp [createBlobsLoop], by simp⟩
  | cons kp rest ih =>
    intro acc nb
    obtain ⟨tail, h1, hlen, h2, hel⟩ := ih (acc ++ [Blob.new kp nb]) (nb + 1)
    refine ⟨Blob.new kp nb :: tail, by simp [createBlobsLoop, h1], by simp [hlen], ?_, ?_⟩
    · simp only [createBlobsLoop, h2, List.length_cons]
      push_cast
      ring
    · intro k kp2 hk
      cases k with
      | zero =>
        simp at hk
        subst hk
        simp
      | succ k =>
        simp at hk
        simp only [List.getElem?_cons_succ, hel k kp2 hk]
        congr 2
        push_cast
        ring

/-- After `createBlobs` there is one blob per current key point, blob `i` is new with
id `i`, and the id counter is the number of key points; nothing else changes. -/
theorem createBlobs_spec (s : App) :
    (createBlobs s).mBlobs.length = s.mKeyPoints.length ∧
    (∀ (i : Nat) (kp : KeyPoint), s.mKeyPoints[i]? = some kp →
      (createBlobs s).mBlobs[i]? = some { id := (i : Int), keyPoints := [kp] }) ∧
    (createBlobs s).newBlobID = (s.mKeyPoints.length : Int) ∧
    (createBlobs s).mKeyPoints = s.mKeyPoints ∧
    (createBlobs s).mPrevKeyPoints = s.mPrevKeyPoints ∧
    (createBlobs s).mMapPrevToCurKeypoints = s.mMapPrevToCurKeypoints ∧
    (createBlobs s).mSurface = s.mSurface := by
  obtain ⟨tail, h1, hlen, h2, hel⟩ := createBlobsLoop_spec s.mKeyPoints [] 0
  simp only [List.nil_append] at h1
  refine ⟨?_, ?_, ?_, rfl, rfl, rfl, rfl⟩
  · show (createBlobsLoop s.mKeyPoints [] 0).1.length = _
    rw [h1, hlen]
  · intro i kp hi
    show (createBlobsLoop s.mKeyPoints [] 0).1[i]? = _
    rw [h1, hel i kp hi]
    simp [Blob.new]
  · show (createBlobsLoop s.mKeyPoints [] 0).2 = _
    rw [h2]
    simp

/-- Every reachable state satisfies the invariant of the tracker: blobs and key points
are aligned and every id in use is below the id counter. -/
theorem reachable_invariant (distance : KeyPoint → KeyPoint → ℚ) (s : App)
    (h : Reachable distance s) :
    s.mBlobs.length = s.mKeyPoints.length ∧ (∀ b ∈ s.mBlobs, b.id < s.newBlobID) := by
  induction h with
  | setup => exact ⟨rfl, by simp [setup]⟩
  | step s s1 detected _ hstep ih => exact step_invariant distance s s1 detected ih.1 ih.2 hstep
  | createBlobs s _ _ =>
    obtain ⟨hlen, hpos, hn, hk, _⟩ := createBlobs_spec s
    refine ⟨by rw [hlen, hk], ?_⟩
    intro b hb
    obtain ⟨i, hi⟩ := List.mem_iff_getElem?.mp hb
    have hilt : i < s.mKeyPoints.length := by
      rw [← hlen]
      exact (List.getElem?_eq_some_iff.mp hi).1
    rw [hpos i _ (List.getElem?_eq_getElem hilt)] at hi
    cases hi
    rw [hn]
    show (i : Int) < (s.mKeyPoints.length : Int)
    exact_mod_cast hilt

/-! ## Evaluating `euclid` -/

/-- The concrete distance returns `d` when `dx^2 + dy^2 = d^2` with `d` non-negative. -/
theorem euclid_eq_of_sq (a b : KeyPoint) (d : ℚ) (hd : 0 ≤ d)
    (h : (a.x - b.x) * (a.x - b.x) + (a.y - b.y) * (a.y - b.y) = d * d) :
    euclid a b = d := by
  rw [euclid, h, Rat.sqrt_eq, abs_of_nonneg hd]

/-- With two previous key points the entry is: the first when it is closer than 100 and
the second is not strictly closer; the second when it is closer than 100 and strictly
closer than the first; `-1` when neither is closer than 100. -/
theorem closestIndex_pair (distance : KeyPoint → KeyPoint → ℚ) (p1 p2 c : KeyPoint) :
    closestIndex distance [p1, p2] c =
      if distance c p1 < 100 then (if distance c p2 < distance c p1 then 1 else 0)
      else (if distance c p2 < 100 then 1 else -1) := by
  by_cases h1 : distance c p1 < 100 <;> by_cases h2 : distance c p2 < distance c p1 <;>
    by_cases h3 : distance c p2 < 100 <;> simp [closestIndex, closestLoop, h1, h2, h3]

/-- The concrete distance between two key points on a horizontal line. -/
theorem euclid_horizontal (x1 x2 y s1 s2 : ℚ) :
    euclid ⟨x1, y, s1⟩ ⟨x2, y, s2⟩ = |x1 - x2| := by
  simp [euclid, Rat.sqrt_eq]

/-- The first frame of the example run: two key points 200 apart, two births. -/
theorem example_first_frame :
    step euclid setup [⟨0, 0, 20⟩, ⟨200, 0, 20⟩] =
      some { mSurface := true, mKeyPoints := [⟨0, 0, 20⟩, ⟨200, 0, 20⟩], mPrevKeyPoints := [],
             mBlobs := [⟨0, [⟨0, 0, 20⟩]⟩, ⟨1, [⟨200, 0, 20⟩]⟩],
             mMapPrevToCurKeypoints := [-1, -1], newBlobID := 2 } := by
  rw [step_eq]
  simp [setup, closestIndex_nil, updateBlobListLoop, Blob.new]

/-- The second frame of the example run: both tracks move by 10 and a third key point
appears at `(400, 0)`: two continuations and one birth. -/
theorem example_second_frame :
    step euclid
      { mSurface := true, mKeyPoints := [⟨0, 0, 20⟩, ⟨200, 0, 20⟩], mPrevKeyPoints := [],
        mBlobs := [⟨0, [⟨0, 0, 20⟩]⟩, ⟨1, [⟨200, 0, 20⟩]⟩],
        mMapPrevToCurKeypoints := [-1, -1], newBlobID := 2 }
      [⟨10, 0, 20⟩, ⟨210, 0, 20⟩, ⟨400, 0, 20⟩] =
      some { mSurface := true,
             mKeyPoints := [⟨10, 0, 20⟩, ⟨210, 0, 20⟩, ⟨400, 0, 20⟩],
             mPrevKeyPoints := [⟨0, 0, 20⟩, ⟨200, 0, 20⟩],
             mBlobs := [⟨0, [⟨0, 0, 20⟩, ⟨10, 0, 20⟩]⟩, ⟨1, [⟨200, 0, 20⟩, ⟨210, 0, 20⟩]⟩,
                        ⟨2, [⟨400, 0, 20⟩]⟩],
             mMapPrevToCurKeypoints := [0, 1, -1], newBlobID := 3 } := by
  have h1 : closestIndex euclid [⟨0, 0, 20⟩, ⟨200, 0, 20⟩] ⟨10, 0, 20⟩ = 0 := by
    rw [closestIndex_pair, euclid_horizontal, euclid_horizontal]
    norm_num [abs_of_nonneg, abs_of_neg]
  have h2 : closestIndex euclid [⟨0, 0, 20⟩, ⟨200, 0, 20⟩] ⟨210, 0, 20⟩ = 1 := by
    rw [closestIndex_pair, euclid_horizontal, euclid_horizontal]
    norm_num [abs_of_nonneg, abs_of_neg]
  have h3 : closestIndex euclid [⟨0, 0, 20⟩, ⟨200, 0, 20⟩] ⟨400, 0, 20⟩ = -1 := by
    rw [closestIndex_pair, euclid_horizontal, euclid_horizontal]
    norm_num [abs_of_nonneg, abs_of_neg]
  rw [step_eq]
  simp only [List.map, h1, h2, h3]
  simp [updateBlobListLoop, Blob.new, Blob.update]

/-- The example run: two tracks born in the first frame, both continued in the second
frame, in which a third track is born. -/
theorem example_run :
    run euclid setup
      [[⟨0, 0, 20⟩, ⟨200, 0, 20⟩], [⟨10, 0, 20⟩, ⟨210, 0, 20⟩, ⟨400, 0, 20⟩]] =
      some { mSurface := true,
             mKeyPoints := [⟨10, 0, 20⟩, ⟨210, 0, 20⟩, ⟨400, 0, 20⟩],
             mPrevKeyPoints := [⟨0, 0, 20⟩, ⟨200, 0, 20⟩],
             mBlobs := [⟨0, [⟨0, 0, 20⟩, ⟨10, 0, 20⟩]⟩, ⟨1, [⟨200, 0, 20⟩, ⟨210, 0, 20⟩]⟩,
                        ⟨2, [⟨400, 0, 20⟩]⟩],
             mMapPrevToCurKeypoints := [0, 1, -1], newBlobID := 3 } := by
  rw [run, example_first_frame]
  simp only []
  rw [run, example_second_frame]
  rfl

/-! ## Uniqueness of ids -/

/-- In a list whose images under `f` have no duplicates, two positions holding elements
with the same image are the same position. -/
theorem nodup_map_index (f : Blob → Int) (l : List Blob) (a b : Nat) (x y : Blob)
    (hnd : (l.map f).Nodup) (hx : l[a]? = some x) (hy : l[b]? = some y) (hxy : f x = f y) :
    a = b := by
  obtain ⟨ha, hxa⟩ := List.getElem?_eq_some_iff.mp hx
  obtain ⟨hb, hyb⟩ := List.getElem?_eq_some_iff.mp hy
  have ha2 : a < (l.map f).length := by simpa using ha
  have hb2 : b < (l.map f).length := by simpa using hb
  have hinj := List.nodup_iff_injective_getElem.mp hnd
  have : (⟨a, ha2⟩ : Fin (l.map f).length) = ⟨b, hb2⟩ := by
    apply hinj
    simp [hxa, hyb, hxy]
  exact Fin.mk.inj_iff.mp this

/-- A step that matches no previous key point twice keeps the ids of the blobs
pairwise distinct. -/
theorem step_nodup (distance : KeyPoint → KeyPoint → ℚ) (s s1 : App) (detected : List KeyPoint)
    (hal : s.mBlobs.length = s.mKeyPoints.length)
    (hid : ∀ b ∈ s.mBlobs, b.id < s.newBlobID)
    (hnd : (s.mBlobs.map (fun b => b.id)).Nodup)
    (hstep : step distance s detected = some s1) (hex : matchedOnce s1) :
    (s1.mBlobs.map (fun b => b.id)).Nodup := by
  obtain ⟨s2, h2, _, hk, _, hmap, hlen, hn, hel⟩ := step_spec distance s detected hal
  rw [hstep] at h2
  cases h2
  rw [List.nodup_iff_getElem?_ne_getElem?]
  intro i j hij hj
  simp only [List.length_map] at hj
  have hmlen : s1.mMapPrevToCurKeypoints.length = s1.mBlobs.length := by
    rw [hmap, List.length_map, hlen]
  have hi : i < s1.mMapPrevToCurKeypoints.length := by omega
  have hj2 : j < s1.mMapPrevToCurKeypoints.length := by omega
  obtain ⟨kpi, _, hci⟩ := hel i _ (List.getElem?_eq_getElem hi)
  obtain ⟨kpj, _, hcj⟩ := hel j _ (List.getElem?_eq_getElem hj2)
  simp only [List.getElem?_map]
  rcases hci with ⟨hei, hbi⟩ | ⟨hei, h0i, bi, hbi, hbi2⟩ <;>
    rcases hcj with ⟨hej, hbj⟩ | ⟨hej, h0j, bj, hbj, hbj2⟩
  · rw [hbi, hbj]
    have := count_take_lt (-1) s1.mMapPrevToCurKeypoints i j
      (by rw [List.getElem?_eq_getElem hi, hei]) hij
    simp [Blob.new]
    omega
  · rw [hbi, hbj2]
    have := hid bj (List.mem_iff_getElem?.mpr ⟨_, hbj⟩)
    simp [Blob.new, Blob.update]
    omega
  · rw [hbi2, hbj]
    have := hid bi (List.mem_iff_getElem?.mpr ⟨_, hbi⟩)
    simp [Blob.new, Blob.update]
    omega
  · rw [hbi2, hbj2]
    simp only [Option.map_some', Blob.update, ne_eq, Option.some.injEq]
    intro heq
    have hne := filter_nodup_ne (fun e => decide (e ≠ -1)) s1.mMapPrevToCurKeypoints i j _ _ hex
      (List.getElem?_eq_getElem hi) (List.getElem?_eq_getElem hj2) hij
      (by simpa using hei) (by simpa using hej)
    have hidx := nodup_map_index (fun b => b.id) s.mBlobs _ _ bi bj hnd hbi hbj heq
    omega

/-- A run in which no step matches a previous key point twice keeps the ids of the
blobs pairwise distinct. -/
theorem run_nodup (distance : KeyPoint → KeyPoint → ℚ) :
    ∀ (frames : List (List KeyPoint)) (s : App),
      s.mBlobs.length = s.mKeyPoints.length → (∀ b ∈ s.mBlobs, b.id < s.newBlobID) →
      (s.mBlobs.map (fun b => b.id)).Nodup → exclusive distance s frames →
      ∃ s1, run distance s frames = some s1 ∧ (s1.mBlobs.map (fun b => b.id)).Nodup := by
  intro frames
  induction frames with
  | nil =>
    intro s _ _ hnd _
    exact ⟨s, rfl, hnd⟩
  | cons frame frames ih =>
    intro s hal hid hnd hex
    obtain ⟨s2, h2, _⟩ := step_spec distance s frame hal
    simp only [exclusive, h2] at hex
    obtain ⟨hal2, hid2⟩ := step_invariant distance s s2 frame hal hid h2
    have hnd2 := step_nodup distance s s2 frame hal hid hnd h2 hex.1
    obtain ⟨s3, h3, hnd3⟩ := ih s2 hal2 hid2 hnd2 hex.2
    exact ⟨s3, by simp [run, h2, h3], hnd3⟩

/-- C2, as the code has it. After every run of per-frame steps from the initial state
in which no step matched two current key points to the same previous key point, the
ids of the blobs in `mBlobs` are pairwise distinct. -/
theorem ids_distinct_of_exclusive (distance : KeyPoint → KeyPoint → ℚ)
    (frames : List (List KeyPoint)) (hex : exclusive distance setup frames) :
    ∃ s, run distance setup frames = some s ∧ (s.mBlobs.map (fun b => b.id)).Nodup :=
  run_nodup distance frames setup rfl (by simp [setup]) (by simp [setup]) hex

/-- C2, witness: two tracks are born 200 apart, both are continued in the next frame,
each matched to its own previous key point, and a third track is born; the three live
blobs have the ids 0, 1 and 2. -/
theorem ids_distinct_of_exclusive_witness :
    exclusive euclid setup
      [[⟨0, 0, 20⟩, ⟨200, 0, 20⟩], [⟨10, 0, 20⟩, ⟨210, 0, 20⟩, ⟨400, 0, 20⟩]] ∧
    (run euclid setup
      [[⟨0, 0, 20⟩, ⟨200, 0, 20⟩], [⟨10, 0, 20⟩, ⟨210, 0, 20⟩, ⟨400, 0, 20⟩]]).map
        (fun s => (s.mMapPrevToCurKeypoints, s.mBlobs.map (fun b => b.id))) =
      some ([0, 1, -1], [0, 1, 2]) ∧
    ∃ s, run euclid setup
        [[⟨0, 0, 20⟩, ⟨200, 0, 20⟩], [⟨10, 0, 20⟩, ⟨210, 0, 20⟩, ⟨400, 0, 20⟩]] = some s ∧
      (s.mBlobs.map (fun b => b.id)).Nodup := by
  have hex : exclusive euclid setup
      [[⟨0, 0, 20⟩, ⟨200, 0, 20⟩], [⟨10, 0, 20⟩, ⟨210, 0, 20⟩, ⟨400, 0, 20⟩]] := by
    rw [exclusive, example_first_frame]
    simp only []
    rw [exclusive, example_second_frame]
    simp only []
    rw [exclusive]
    refine ⟨?_, ?_, trivial⟩
    · simp [matchedOnce]
    · simp [matchedOnce]
  refine ⟨hex, ?_, ids_distinct_of_exclusive euclid _ hex⟩
  rw [example_run]
  rfl

/-- C2, counterexample. From the initial state, a frame with one key point at `(0, 0)`
followed by a frame with key points at `(60, 0)` and `(-60, 0)`: both are at distance 60
from the one previous key point and are matched to it, and `mBlobs` holds two blobs with
id 0. -/
theorem ids_repeat_after_shared_match :
    run euclid setup [[⟨0, 0, 20⟩], [⟨60, 0, 20⟩, ⟨-60, 0, 20⟩]] =
      some { mSurface := true,
             mKeyPoints := [⟨60, 0, 20⟩, ⟨-60, 0, 20⟩],
             mPrevKeyPoints := [⟨0, 0, 20⟩],
             mBlobs := [⟨0, [⟨0, 0, 20⟩, ⟨60, 0, 20⟩]⟩, ⟨0, [⟨0, 0, 20⟩, ⟨-60, 0, 20⟩]⟩],
             mMapPrevToCurKeypoints := [0, 0],
             newBlobID := 1 } ∧
    ¬ (([⟨0, [⟨0, 0, 20⟩, ⟨60, 0, 20⟩]⟩, ⟨0, [⟨0, 0, 20⟩, ⟨-60, 0, 20⟩]⟩] : List Blob).map
        (fun b => b.id)).Nodup := by
  have h1 : closestIndex euclid [⟨0, 0, 20⟩] ⟨60, 0, 20⟩ = 0 := by
    have h : euclid ⟨60, 0, 20⟩ ⟨0, 0, 20⟩ = 60 :=
      euclid_eq_of_sq _ _ 60 (by norm_num) (by norm_num)
    rw [closestIndex_single, h]
    norm_num
  have h2 : closestIndex euclid [⟨0, 0, 20⟩] ⟨-60, 0, 20⟩ = 0 := by
    have h : euclid ⟨-60, 0, 20⟩ ⟨0, 0, 20⟩ = 60 :=
      euclid_eq_of_sq _ _ 60 (by norm_num) (by norm_num)
    rw [closestIndex_single, h]
    norm_num
  have hs1 : step euclid setup [⟨0, 0, 20⟩] =
      some { mSurface := true, mKeyPoints := [⟨0, 0, 20⟩], mPrevKeyPoints := [],
             mBlobs := [⟨0, [⟨0, 0, 20⟩]⟩], mMapPrevToCurKeypoints := [-1],
             newBlobID := 1 } := by
    rw [step_eq]
    simp [setup, closestIndex_nil, updateBlobListLoop, Blob.new]
  have hs2 : step euclid
      { mSurface := true, mKeyPoints := [⟨0, 0, 20⟩], mPrevKeyPoints := [],
        mBlobs := [⟨0, [⟨0, 0, 20⟩]⟩], mMapPrevToCurKeypoints := [-1], newBlobID := 1 }
      [⟨60, 0, 20⟩, ⟨-60, 0, 20⟩] =
      some { mSurface := true,
             mKeyPoints := [⟨60, 0, 20⟩, ⟨-60, 0, 20⟩],
             mPrevKeyPoints := [⟨0, 0, 20⟩],
             mBlobs := [⟨0, [⟨0, 0, 20⟩, ⟨60, 0, 20⟩]⟩, ⟨0, [⟨0, 0, 20⟩, ⟨-60, 0, 20⟩]⟩],
             mMapPrevToCurKeypoints := [0, 0],
             newBlobID := 1 } := by
    rw [step_eq]
    simp only [List.map, h1, h2]
    simp [updateBlobListLoop, Blob.update]
  constructor
  · rw [run, hs1]
    simp only []
    rw [run, hs2]
    rfl
  · simp

/-! ## Births -/

/-- The ids read off the birth positions of a blob vector built as `updateBlobList`
builds it are consecutive, starting at the old id counter. -/
theorem born_ids_of_spec :
    ∀ (map : List Int) (tail : List Blob) (nb : Int), tail.length = map.length →
      (∀ k : Nat, map[k]? = some (-1) → ∃ kp,
        tail[k]? = some (Blob.new kp (nb + (((map.take k).count (-1) : Nat) : Int)))) →
      ((tail.zip map).filter (fun p => decide (p.2 = -1))).map (fun p => p.1.id) =
        (List.range (map.count (-1))).map (fun k : Nat => nb + (k : Int)) := by
  intro map
  induction map with
  | nil =>
    intro tail nb hlen _
    simp at hlen
    simp [hlen]
  | cons e rest ih =>
    intro tail nb hlen hel
    cases tail with
    | nil => simp at hlen
    | cons t ts =>
      simp at hlen
      by_cases he : e = -1
      · subst he
        obtain ⟨kp, hkp⟩ := hel 0 (by simp)
        simp at hkp
        have hrest : ∀ k : Nat, rest[k]? = some (-1) → ∃ kp,
            ts[k]? = some (Blob.new kp (nb + 1 + (((rest.take k).count (-1) : Nat) : Int))) := by
          intro k hk
          obtain ⟨kp2, hkp2⟩ := hel (k + 1) (by simpa using hk)
          refine ⟨kp2, ?_⟩
          simp only [List.getElem?_cons_succ, List.take_succ_cons, List.count_cons_self] at hkp2
          rw [hkp2]
          congr 2
          push_cast
          ring
        have hih := ih ts (nb + 1) hlen hrest
        simp only [List.zip_cons_cons, List.count_cons_self]
        rw [List.filter_cons_of_pos (by simp), List.map_cons, hih, List.range_succ_eq_map]
        simp only [List.map_cons, List.map_map, hkp, Blob.new]
        congr 1
        · simp
        · apply List.map_congr_left
          intro k _
          simp
          ring
      · have hrest : ∀ k : Nat, rest[k]? = some (-1) → ∃ kp,
            ts[k]? = some (Blob.new kp (nb + (((rest.take k).count (-1) : Nat) : Int))) := by
          intro k hk
          obtain ⟨kp2, hkp2⟩ := hel (k + 1) (by simpa using hk)
          refine ⟨kp2, ?_⟩
          simp only [List.getElem?_cons_succ, List.take_succ_cons] at hkp2
          rw [hkp2, List.count_cons_of_ne (fun h => he h.symm)]
        have hih := ih ts nb hlen hrest
        simp only [List.zip_cons_cons]
        rw [List.filter_cons_of_neg (by simpa using he), hih,
          List.count_cons_of_ne (fun h => he h.symm)]

/-- The blobs born in a step get the consecutive ids `newBlobID`, `newBlobID + 1`, ...
in the order of their creation, and the id counter grows by the number of births. -/
theorem step_born (distance : KeyPoint → KeyPoint → ℚ) (s s1 : App) (detected : List KeyPoint)
    (hal : s.mBlobs.length = s.mKeyPoints.length) (hstep : step distance s detected = some s1) :
    bornIDs s1 = (List.range (bornIDs s1).length).map (fun k : Nat => s.newBlobID + (k : Int)) ∧
      s1.newBlobID = s.newBlobID + ((bornIDs s1).length : Int) := by
  obtain ⟨s2, h2, _, hk, _, hmap, hlen, hn, hel⟩ := step_spec distance s detected hal
  rw [hstep] at h2
  cases h2
  have hmlen : s1.mBlobs.length = s1.mMapPrevToCurKeypoints.length := by
    rw [hmap, List.length_map, hlen]
  have hb : bornIDs s1 = (List.range (s1.mMapPrevToCurKeypoints.count (-1))).map
      (fun k : Nat => s.newBlobID + (k : Int)) := by
    unfold bornIDs
    apply born_ids_of_spec _ _ _ hmlen
    intro k hk1
    obtain ⟨kp, _, hcase⟩ := hel k _ hk1
    rcases hcase with ⟨_, h⟩ | ⟨h, _⟩
    · exact ⟨kp, h⟩
    · exact absurd rfl h
  have hl : (bornIDs s1).length = s1.mMapPrevToCurKeypoints.count (-1) := by
    rw [hb]; simp
  rw [hl]
  exact ⟨hb, hn⟩

/-- The number of births of a step is the number of `-1` entries of its map. -/
theorem step_born_length (distance : KeyPoint → KeyPoint → ℚ) (s s1 : App)
    (detected : List KeyPoint) (hal : s.mBlobs.length = s.mKeyPoints.length)
    (hstep : step distance s detected = some s1) :
    ((bornIDs s1).length : Int) = ((s1.mMapPrevToCurKeypoints.count (-1) : Nat) : Int) := by
  obtain ⟨s2, h2, _, _, _, _, _, hn, _⟩ := step_spec distance s detected hal
  rw [hstep] at h2
  cases h2
  have := (step_born distance s s1 detected hal hstep).2
  omega

/-- Over a run from an aligned state the ids given at birth are the consecutive values
of the id counter, in the order of the births. -/
theorem run_births (distance : KeyPoint → KeyPoint → ℚ) :
    ∀ (frames : List (List KeyPoint)) (s : App), s.mBlobs.length = s.mKeyPoints.length →
      ∃ s1, run distance s frames = some s1 ∧ s1.mBlobs.length = s1.mKeyPoints.length ∧
        births distance s frames =
          (List.range (births distance s frames).length).map (fun k : Nat => s.newBlobID + (k : Int)) ∧
        s1.newBlobID = s.newBlobID + ((births distance s frames).length : Int) := by
  intro frames
  induction frames with
  | nil =>
    intro s hal
    exact ⟨s, rfl, hal, by simp [births], by simp [births]⟩
  | cons frame frames ih =>
    intro s hal
    obtain ⟨s2, h2, _, hk2, _, _, hlen2, _, _⟩ := step_spec distance s frame hal
    have hal2 : s2.mBlobs.length = s2.mKeyPoints.length := by rw [hlen2, hk2]
    obtain ⟨hb, hn⟩ := step_born distance s s2 frame hal h2
    obtain ⟨s3, h3, hal3, hbs, hn3⟩ := ih s2 hal2
    have hbirths : births distance s (frame :: frames) = bornIDs s2 ++ births distance s2 frames := by
      simp [births, h2]
    refine ⟨s3, by simp [run, h2, h3], hal3, ?_, ?_⟩
    · rw [hbirths, List.length_append, List.range_add, List.map_append, List.map_map, ← hb]
      congr 1
      rw [hbs]
      simp only [List.length_map, List.length_range]
      apply List.map_congr_left
      intro k _
      simp only [Function.comp]
      rw [hn]
      push_cast
      ring
    · rw [hn3, hn, hbirths, List.length_append]
      push_cast
      ring

/-- Running one more frame appends the births of that frame. -/
theorem births_append (distance : KeyPoint → KeyPoint → ℚ) :
    ∀ (frames : List (List KeyPoint)) (s s1 s2 : App) (frame : List KeyPoint),
      run distance s frames = some s1 → step distance s1 frame = some s2 →
      births distance s (frames ++ [frame]) = births distance s frames ++ bornIDs s2 := by
  intro frames
  induction frames with
  | nil =>
    intro s s1 s2 frame hrun hstep
    simp [run] at hrun
    subst hrun
    simp [births, hstep]
  | cons f frames ih =>
    intro s s1 s2 frame hrun hstep
    cases hs : step distance s f with
    | none => simp [run, hs] at hrun
    | some s3 =>
      simp only [run, hs] at hrun
      simp [births, hs, ih s3 s1 s2 frame hrun hstep]

/-- Running one more frame is one more step from the state the run ends in. -/
theorem run_snoc (distance : KeyPoint → KeyPoint → ℚ) :
    ∀ (frames : List (List KeyPoint)) (s s1 : App) (frame : List KeyPoint),
      run distance s frames = some s1 →
      run distance s (frames ++ [frame]) = step distance s1 frame := by
  intro frames
  induction frames with
  | nil =>
    intro s s1 frame hrun
    simp [run] at hrun
    subst hrun
    simp only [List.nil_append, run]
    cases step distance s frame <;> rfl
  | cons f frames ih =>
    intro s s1 frame hrun
    cases hs : step distance s f with
    | none => simp [run, hs] at hrun
    | some s3 =>
      simp only [run, hs] at hrun
      simp only [List.cons_append, run, hs]
      exact ih s3 s1 frame hrun

/-- Over a run from the initial state the ids given at birth are 0, 1, 2, ... in the
order of the births, and the id counter ends at their number. -/
theorem run_births_setup (distance : KeyPoint → KeyPoint → ℚ)
    (frames : List (List KeyPoint)) :
    ∃ s, run distance setup frames = some s ∧ s.mBlobs.length = s.mKeyPoints.length ∧
      s.newBlobID = ((births distance setup frames).length : Int) ∧
      births distance setup frames =
        (List.range s.newBlobID.toNat).map (fun k : Nat => (k : Int)) ∧
      (births distance setup frames).Pairwise (fun a b => a < b) := by
  obtain ⟨s, hrun, hal, hb, hn⟩ := run_births distance frames setup rfl
  have hn2 : s.newBlobID = ((births distance setup frames).length : Int) := by
    rw [hn]; simp [setup]
  have hb2 : births distance setup frames
      = (List.range s.newBlobID.toNat).map (fun k : Nat => (k : Int)) := by
    rw [hn2, Int.toNat_ofNat]
    conv_lhs => rw [hb]
    apply List.map_congr_left
    intro k _
    simp [setup]
  have hpw : (births distance setup frames).Pairwise (fun a b => a < b) := by
    rw [hb2, List.pairwise_map]
    exact (List.pairwise_lt_range _).imp (fun h => by exact_mod_cast h)
  exact ⟨s, hrun, hal, hn2, hb2, hpw⟩

/-- C3. Take a run of per-frame steps from the initial state followed by one more
frame, with fewer than `2^31` births in all, so that the 32-bit counter does not
overflow. The run and the last step complete. The ids given at birth over the whole
run are 0, 1, 2, ... in the order of the births, up to the final `newBlobID`: they
strictly increase across frames and within a frame and none is given twice. In the last
step the map is the matcher's; there is one blob per key point; every key point whose
map entry is `-1` gets a new blob holding that one observation, whose id is
`newBlobID` as it stands after the births at the earlier positions of the frame; the
births of the step are as many as the `-1` entries, with ids `newBlobID`,
`newBlobID + 1`, ...; and `newBlobID` grows by one per birth and stays below `2^31`. -/
theorem births_strictly_increase (distance : KeyPoint → KeyPoint → ℚ)
    (frames : List (List KeyPoint)) (frame : List KeyPoint)
    (hbound : ((births distance setup (frames ++ [frame])).length : Int) < 2 ^ 31) :
    ∃ s s1, run distance setup frames = some s ∧ step distance s frame = some s1 ∧
      run distance setup (frames ++ [frame]) = some s1 ∧
      0 ≤ s.newBlobID ∧
      births distance setup frames =
        (List.range s.newBlobID.toNat).map (fun k : Nat => (k : Int)) ∧
      births distance setup (frames ++ [frame]) = births distance setup frames ++ bornIDs s1 ∧
      births distance setup (frames ++ [frame]) =
        (List.range s1.newBlobID.toNat).map (fun k : Nat => (k : Int)) ∧
      (births distance setup (frames ++ [frame])).Pairwise (fun a b => a < b) ∧
      (births distance setup (frames ++ [frame])).Nodup ∧
      s1.mMapPrevToCurKeypoints = frame.map (closestIndex distance s.mKeyPoints) ∧
      s1.mBlobs.length = frame.length ∧
      (∀ (i : Nat) (kp : KeyPoint), frame[i]? = some kp →
        s1.mMapPrevToCurKeypoints[i]? = some (-1) →
        s1.mBlobs[i]? = some
          { id := s.newBlobID + (((s1.mMapPrevToCurKeypoints.take i).count (-1) : Nat) : Int),
            keyPoints := [kp] }) ∧
      (bornIDs s1).length = s1.mMapPrevToCurKeypoints.count (-1) ∧
      bornIDs s1 =
        (List.range (bornIDs s1).length).map (fun k : Nat => s.newBlobID + (k : Int)) ∧
      s1.newBlobID = s.newBlobID + ((bornIDs s1).length : Int) ∧
      s1.newBlobID < 2 ^ 31 := by
  obtain ⟨s, hrun, hal, hn, hb, _⟩ := run_births_setup distance frames
  obtain ⟨s1, h1, _, _, _, hmap, hlen, _, hel⟩ := step_spec distance s frame hal
  obtain ⟨hborn, hnb⟩ := step_born distance s s1 frame hal h1
  have hbl := step_born_length distance s s1 frame hal h1
  have hrun1 : run distance setup (frames ++ [frame]) = some s1 := by
    rw [run_snoc distance frames setup s frame hrun, h1]
  obtain ⟨s2, hrun2, _, hn2, hb2, hpw2⟩ := run_births_setup distance (frames ++ [frame])
  rw [hrun1] at hrun2
  cases hrun2
  refine ⟨s, s1, hrun, h1, hrun1, by rw [hn]; exact Int.ofNat_nonneg _, hb,
    births_append distance frames setup s s1 frame hrun h1, hb2, hpw2,
    hpw2.imp (fun h => ne_of_lt h), hmap, hlen, ?_, by exact_mod_cast hbl, hborn, hnb, ?_⟩
  · intro i kp hi hmi
    obtain ⟨kp2, hkp2, hcase⟩ := hel i _ hmi
    rw [hi] at hkp2
    cases hkp2
    rcases hcase with ⟨_, hbi⟩ | ⟨hne, _⟩
    · rw [hbi]
      rfl
    · exact absurd rfl hne
  · rw [hn2]
    exact hbound

/-- C3, witness: two births in the first frame, then two continuations and one birth;
the ids given at birth are 0, 1, 2. -/
theorem births_strictly_increase_witness :
    births euclid setup
      ([[⟨0, 0, 20⟩, ⟨200, 0, 20⟩]] ++ [[⟨10, 0, 20⟩, ⟨210, 0, 20⟩, ⟨400, 0, 20⟩]]) =
      [0, 1, 2] ∧
    ((births euclid setup
      ([[⟨0, 0, 20⟩, ⟨200, 0, 20⟩]] ++ [[⟨10, 0, 20⟩, ⟨210, 0, 20⟩, ⟨400, 0, 20⟩]])).length
        : Int) < 2 ^ 31 ∧
    ∃ s s1, run euclid setup [[⟨0, 0, 20⟩, ⟨200, 0, 20⟩]] = some s ∧
      step euclid s [⟨10, 0, 20⟩, ⟨210, 0, 20⟩, ⟨400, 0, 20⟩] = some s1 ∧
      s1.mBlobs.length = 3 ∧
      (bornIDs s1).length = s1.mMapPrevToCurKeypoints.count (-1) ∧
      bornIDs s1 =
        (List.range (bornIDs s1).length).map (fun k : Nat => s.newBlobID + (k : Int)) ∧
      s1.newBlobID = s.newBlobID + ((bornIDs s1).length : Int) ∧
      s1.newBlobID < 2 ^ 31 := by
  have hb : births euclid setup
      ([[⟨0, 0, 20⟩, ⟨200, 0, 20⟩]] ++ [[⟨10, 0, 20⟩, ⟨210, 0, 20⟩, ⟨400, 0, 20⟩]]) =
      [0, 1, 2] := by
    rw [List.singleton_append, births, example_first_frame]
    simp only []
    rw [births, example_second_frame]
    simp only []
    rw [births]
    simp [bornIDs]
  have hlt : ((births euclid setup
      ([[⟨0, 0, 20⟩, ⟨200, 0, 20⟩]] ++ [[⟨10, 0, 20⟩, ⟨210, 0, 20⟩, ⟨400, 0, 20⟩]])).length
        : Int) < 2 ^ 31 := by
    rw [hb]
    norm_num
  obtain ⟨s, s1, hrun, hstep, _, _, _, _, _, _, _, _, hlen, _, hcount, hborn, hn, hlt2⟩ :=
    births_strictly_increase euclid [[⟨0, 0, 20⟩, ⟨200, 0, 20⟩]]
      [⟨10, 0, 20⟩, ⟨210, 0, 20⟩, ⟨400, 0, 20⟩] hlt
  exact ⟨hb, hlt, s, s1, hrun, hstep, by simpa using hlen, hcount, hborn, hn, hlt2⟩

/-! ## Continuations -/

/-- The result of a step that completes, field by field. -/
theorem step_some_spec (distance : KeyPoint → KeyPoint → ℚ) (s s1 : App)
    (detected : List KeyPoint) (hstep : step distance s detected = some s1) :
    s1.mKeyPoints = detected ∧ s1.mPrevKeyPoints = s.mKeyPoints ∧
    s1.mMapPrevToCurKeypoints = detected.map (closestIndex distance s.mKeyPoints) ∧
    s1.mBlobs.length = detected.length ∧
    ∀ (k : Nat) (e : Int), s1.mMapPrevToCurKeypoints[k]? = some e →
      ∃ kp, detected[k]? = some kp ∧
        ((e = -1 ∧ s1.mBlobs[k]? = some (Blob.new kp
            (s.newBlobID + (((s1.mMapPrevToCurKeypoints.take k).count (-1) : Nat) : Int)))) ∨
         (e ≠ -1 ∧ 0 ≤ e ∧ ∃ b, s.mBlobs[e.toNat]? = some b ∧
            s1.mBlobs[k]? = some (b.update kp))) := by
  rw [step_eq] at hstep
  cases hr : updateBlobListLoop detected s.mBlobs
      (detected.map (closestIndex distance s.mKeyPoints)) 0 [] s.newBlobID with
  | none => simp [hr] at hstep
  | some r =>
    simp only [hr, Option.map_some', Option.some.injEq] at hstep
    subst hstep
    obtain ⟨tail, hbs, hlen, _, hel⟩ := updateBlobListLoop_spec detected s.mBlobs
      (detected.map (closestIndex distance s.mKeyPoints)) 0 [] s.newBlobID r.1 r.2 rfl hr
    simp only [List.nil_append] at hbs
    refine ⟨rfl, rfl, rfl, ?_, ?_⟩
    · show r.1.length = detected.length
      rw [hbs, hlen]; simp
    · intro k e hke
      obtain ⟨kp, hkp, hcase⟩ := hel k e hke
      rw [← hbs] at hcase
      exact ⟨kp, by simpa using hkp, hcase⟩

/-- C4. A step from a state whose blobs are aligned with its key points completes; and
in every step that completes, for every current key point `i` that `blobTracking`
matched to previous index `j`, the blob at position `i` of the new `mBlobs` has the id
of the previous frame's blob `j`, and its history is that blob's history with the one
observation `mKeyPoints[i]` appended at the end, so one observation longer. -/
theorem continued_blob_appends (distance : KeyPoint → KeyPoint → ℚ) (s : App)
    (detected : List KeyPoint) :
    (s.mBlobs.length = s.mKeyPoints.length → ∃ s1, step distance s detected = some s1) ∧
    ∀ s1, step distance s detected = some s1 →
      ∀ (i j : Nat), s1.mMapPrevToCurKeypoints[i]? = some (j : Int) →
        ∃ (b : Blob) (kp : KeyPoint) (b1 : Blob),
          s.mBlobs[j]? = some b ∧ s1.mKeyPoints[i]? = some kp ∧ s1.mBlobs[i]? = some b1 ∧
          b1.id = b.id ∧ b1.keyPoints = b.keyPoints ++ [kp] ∧
          b1.keyPoints.length = b.keyPoints.length + 1 := by
  constructor
  · intro hal
    obtain ⟨s1, h1, _⟩ := step_spec distance s detected hal
    exact ⟨s1, h1⟩
  · intro s1 hstep i j hij
    obtain ⟨hk, _, _, _, hel⟩ := step_some_spec distance s s1 detected hstep
    obtain ⟨kp, hkp, hcase⟩ := hel i _ hij
    rcases hcase with ⟨he, _⟩ | ⟨_, _, b, hb, hb1⟩
    · omega
    · refine ⟨b, kp, b.update kp, by simpa using hb, by rw [hk]; exact hkp, hb1, rfl, rfl, ?_⟩
      simp [Blob.update]

/-- C4, witness: the blob with id 0 seen at `(0, 0)` is continued at `(3, 4)`. -/
theorem continued_blob_appends_witness :
    step euclid
      { mSurface := true, mKeyPoints := [⟨0, 0, 20⟩], mPrevKeyPoints := [],
        mBlobs := [⟨0, [⟨0, 0, 20⟩]⟩], mMapPrevToCurKeypoints := [-1], newBlobID := 1 }
      [⟨3, 4, 20⟩] =
      some { mSurface := true, mKeyPoints := [⟨3, 4, 20⟩], mPrevKeyPoints := [⟨0, 0, 20⟩],
             mBlobs := [⟨0, [⟨0, 0, 20⟩, ⟨3, 4, 20⟩]⟩], mMapPrevToCurKeypoints := [0],
             newBlobID := 1 } ∧
    ∃ (b : Blob) (kp : KeyPoint) (b1 : Blob),
      ([⟨0, [⟨0, 0, 20⟩]⟩] : List Blob)[0]? = some b ∧
      ([⟨3, 4, 20⟩] : List KeyPoint)[0]? = some kp ∧
      ([⟨0, [⟨0, 0, 20⟩, ⟨3, 4, 20⟩]⟩] : List Blob)[0]? = some b1 ∧
      b1.id = b.id ∧ b1.keyPoints = b.keyPoints ++ [kp] ∧
      b1.keyPoints.length = b.keyPoints.length + 1 := by
  have h1 : euclid ⟨3, 4, 20⟩ ⟨0, 0, 20⟩ = 5 :=
    euclid_eq_of_sq _ _ 5 (by norm_num) (by norm_num)
  have hstep : step euclid
      { mSurface := true, mKeyPoints := [⟨0, 0, 20⟩], mPrevKeyPoints := [],
        mBlobs := [⟨0, [⟨0, 0, 20⟩]⟩], mMapPrevToCurKeypoints := [-1], newBlobID := 1 }
      [⟨3, 4, 20⟩] =
      some { mSurface := true, mKeyPoints := [⟨3, 4, 20⟩], mPrevKeyPoints := [⟨0, 0, 20⟩],
             mBlobs := [⟨0, [⟨0, 0, 20⟩, ⟨3, 4, 20⟩]⟩], mMapPrevToCurKeypoints := [0],
             newBlobID := 1 } := by
    norm_num [step, update, blobDetection, blobTracking, updateBlobList, updateBlobListLoop,
      closestIndex, closestLoop, h1, Blob.new, Blob.update]
  exact ⟨hstep, (continued_blob_appends euclid _ _).2 _ hstep 0 0 (by simp)⟩

/-! ## One track, one observation -/

/-- C5. From every reachable state whose current frame holds exactly one key point `p`,
carried by one blob of id `k`, a step with exactly one key point `c` completes and
leaves exactly one blob: when the distance between `c` and `p` is below 100 it is the
old blob with `c` appended, with id `k`, and the id counter is unchanged; when the
distance is 100 or more it is a new blob whose id is the value of `newBlobID` before the
step, which differs from `k`, and no blob with id `k` is left. -/
theorem single_track_step (distance : KeyPoint → KeyPoint → ℚ) (s : App)
    (p c : KeyPoint) (b : Blob) (k : Int)
    (hr : Reachable distance s) (hp : s.mKeyPoints = [p]) (hb : s.mBlobs = [b])
    (hk : b.id = k) :
    ∃ s1 b1, step distance s [c] = some s1 ∧ s1.mBlobs = [b1] ∧
      (distance c p < 100 →
        b1.id = k ∧ b1.keyPoints = b.keyPoints ++ [c] ∧ s1.newBlobID = s.newBlobID) ∧
      (100 ≤ distance c p →
        b1.id = s.newBlobID ∧ b1.keyPoints = [c] ∧ s.newBlobID ≠ k ∧
        (∀ x ∈ s1.mBlobs, x.id ≠ k) ∧ s1.newBlobID = s.newBlobID + 1) := by
  obtain ⟨_, hid⟩ := reachable_invariant distance s hr
  have hlt : k < s.newBlobID := by
    rw [← hk]
    exact hid b (by simp [hb])
  by_cases h : distance c p < 100
  · refine ⟨{ mSurface := true, mKeyPoints := [c], mPrevKeyPoints := [p],
               mBlobs := [b.update c], mMapPrevToCurKeypoints := [0],
               newBlobID := s.newBlobID }, b.update c, ?_, rfl, ?_, ?_⟩
    · rw [step_eq, hp, hb]
      simp [closestIndex_single, h, updateBlobListLoop]
    · intro _
      exact ⟨hk, rfl, rfl⟩
    · intro h2
      exact absurd h (not_lt.mpr h2)
  · refine ⟨{ mSurface := true, mKeyPoints := [c], mPrevKeyPoints := [p],
               mBlobs := [Blob.new c s.newBlobID], mMapPrevToCurKeypoints := [-1],
               newBlobID := s.newBlobID + 1 }, Blob.new c s.newBlobID, ?_, rfl, ?_, ?_⟩
    · rw [step_eq, hp, hb]
      simp [closestIndex_single, h, updateBlobListLoop]
    · intro h2
      exact absurd h2 h
    · intro _
      refine ⟨rfl, rfl, ne_of_gt hlt, ?_, rfl⟩
      intro x hx
      simp at hx
      subst hx
      exact ne_of_gt hlt

/-- C5, witness: after a first frame with a key point at `(10, 10)`, a frame with a key
point at `(13, 14)`, at distance 5. -/
theorem single_track_step_witness :
    Reachable euclid
      { mSurface := true, mKeyPoints := [⟨10, 10, 20⟩], mPrevKeyPoints := [],
        mBlobs := [⟨0, [⟨10, 10, 20⟩]⟩], mMapPrevToCurKeypoints := [-1], newBlobID := 1 } ∧
    ∃ s1 b1,
      step euclid
        { mSurface := true, mKeyPoints := [⟨10, 10, 20⟩], mPrevKeyPoints := [],
          mBlobs := [⟨0, [⟨10, 10, 20⟩]⟩], mMapPrevToCurKeypoints := [-1], newBlobID := 1 }
        [⟨13, 14, 20⟩] = some s1 ∧ s1.mBlobs = [b1] ∧
      (euclid ⟨13, 14, 20⟩ ⟨10, 10, 20⟩ < 100 →
        b1.id = 0 ∧ b1.keyPoints = [⟨10, 10, 20⟩] ++ [⟨13, 14, 20⟩] ∧ s1.newBlobID = 1) ∧
      (100 ≤ euclid ⟨13, 14, 20⟩ ⟨10, 10, 20⟩ →
        b1.id = 1 ∧ b1.keyPoints = [⟨13, 14, 20⟩] ∧ (1 : Int) ≠ 0 ∧
        (∀ x ∈ s1.mBlobs, x.id ≠ 0) ∧ s1.newBlobID = 1 + 1) := by
  have hr : Reachable euclid
      { mSurface := true, mKeyPoints := [⟨10, 10, 20⟩], mPrevKeyPoints := [],
        mBlobs := [⟨0, [⟨10, 10, 20⟩]⟩], mMapPrevToCurKeypoints := [-1], newBlobID := 1 } :=
    Reachable.step setup _ [⟨10, 10, 20⟩] Reachable.setup (by
      rw [step_eq]
      simp [setup, closestIndex_nil, updateBlobListLoop, Blob.new])
  exact ⟨hr, single_track_step euclid _ ⟨10, 10, 20⟩ ⟨13, 14, 20⟩ ⟨0, [⟨10, 10, 20⟩]⟩ 0 hr rfl rfl rfl⟩

/-! ## An empty frame -/

/-- A step with no key point leaves no blob and keeps the id counter. -/
theorem step_empty (distance : KeyPoint → KeyPoint → ℚ) (s : App) :
    step distance s [] =
      some { mSurface := true, mKeyPoints := [], mPrevKeyPoints := s.mKeyPoints, mBlobs := [],
             mMapPrevToCurKeypoints := [], newBlobID := s.newBlobID } := by
  rw [step_eq]
  simp [updateBlobListLoop]

/-- In a list of `-1` every prefix of length `k` counts `k` entries. -/
theorem count_take_replicate (n k : Nat) (h : k ≤ n) :
    ((List.replicate n (-1 : Int)).take k).count (-1) = k := by
  rw [List.take_replicate, List.count_replicate_self]
  omega

/-- C6. From every state a step with no key point completes, leaves `mBlobs` empty and
`newBlobID` unchanged. Let the step that follows have `n` key points, with `newBlobID`
in the range of the 32-bit counter and `newBlobID + n` below `2^31`, so that the counter
does not overflow. It is matched against an empty previous list, so every entry of the
map is `-1` and the output is `n` new blobs, each holding the one observation it was
born from, with ids `newBlobID`, `newBlobID + 1`, ..., `newBlobID + n - 1` in input
order; the counter ends at `newBlobID + n`, and the ids and the counter stay in the
range of the 32-bit counter; and when the state is reachable none of the ids it held is
among the new ones. -/
theorem empty_frame_then_all_births (distance : KeyPoint → KeyPoint → ℚ) (s : App)
    (obs : List KeyPoint)
    (hlo : -(2 ^ 31) ≤ s.newBlobID) (hhi : s.newBlobID + (obs.length : Int) < 2 ^ 31) :
    ∃ s1 s2, step distance s [] = some s1 ∧ s1.mBlobs = [] ∧ s1.newBlobID = s.newBlobID ∧
      s1.mKeyPoints = [] ∧
      step distance s1 obs = some s2 ∧ s2.mPrevKeyPoints = [] ∧
      s2.mMapPrevToCurKeypoints = List.replicate obs.length (-1) ∧
      s2.mBlobs.length = obs.length ∧
      (∀ (i : Nat) (kp : KeyPoint), obs[i]? = some kp →
        s2.mBlobs[i]? = some { id := s.newBlobID + (i : Int), keyPoints := [kp] }) ∧
      s2.newBlobID = s.newBlobID + (obs.length : Int) ∧
      -(2 ^ 31) ≤ s2.newBlobID ∧ s2.newBlobID < 2 ^ 31 ∧
      (∀ b2 ∈ s2.mBlobs, -(2 ^ 31) ≤ b2.id ∧ b2.id < 2 ^ 31) ∧
      (Reachable distance s → ∀ b ∈ s.mBlobs, ∀ b2 ∈ s2.mBlobs, b2.id ≠ b.id) := by
  obtain ⟨s2, h2, _, _, hprev, hmap, hlen, hn, hel⟩ := step_spec distance
    { mSurface := true, mKeyPoints := [], mPrevKeyPoints := s.mKeyPoints, mBlobs := [],
      mMapPrevToCurKeypoints := [], newBlobID := s.newBlobID } obs rfl
  have hmap2 : s2.mMapPrevToCurKeypoints = List.replicate obs.length (-1) := by
    rw [hmap]
    simp only [closestIndex_nil]
    exact List.map_const _ _
  have hpos : ∀ (i : Nat) (kp : KeyPoint), obs[i]? = some kp →
      s2.mBlobs[i]? = some { id := s.newBlobID + (i : Int), keyPoints := [kp] } := by
    intro i kp hi
    have hilt : i < obs.length := (List.getElem?_eq_some_iff.mp hi).1
    have hmi : s2.mMapPrevToCurKeypoints[i]? = some (-1) := by
      rw [hmap2, List.getElem?_replicate]
      simp [hilt]
    obtain ⟨kp2, hkp2, hcase⟩ := hel i _ hmi
    rw [hi] at hkp2
    cases hkp2
    rcases hcase with ⟨_, hb⟩ | ⟨hne, _⟩
    · rw [hb, hmap2, count_take_replicate _ _ (le_of_lt hilt)]
      rfl
    · exact absurd rfl hne
  have hn2 : s2.newBlobID = s.newBlobID + (obs.length : Int) := by
    rw [hn, hmap2, List.count_replicate_self]
  have hmem : ∀ b2 ∈ s2.mBlobs, ∃ i : Nat, i < obs.length ∧ b2.id = s.newBlobID + (i : Int) := by
    intro b2 hb2
    obtain ⟨i, hi⟩ := List.mem_iff_getElem?.mp hb2
    have hilt : i < obs.length := by
      rw [← hlen]
      exact (List.getElem?_eq_some_iff.mp hi).1
    rw [hpos i obs[i] (List.getElem?_eq_getElem hilt)] at hi
    cases hi
    exact ⟨i, hilt, rfl⟩
  refine ⟨_, s2, step_empty distance s, rfl, rfl, rfl, h2, hprev, hmap2, hlen, hpos, hn2,
    ?_, ?_, ?_, ?_⟩
  · rw [hn2]
    omega
  · rw [hn2]
    exact hhi
  · intro b2 hb2
    obtain ⟨i, hilt, hid⟩ := hmem b2 hb2
    rw [hid]
    constructor <;> omega
  · intro hr b hb b2 hb2
    obtain ⟨_, hid⟩ := reachable_invariant distance s hr
    have hlt := hid b hb
    obtain ⟨i, _, hid2⟩ := hmem b2 hb2
    rw [hid2]
    omega

/-- C6, witness: the reachable state holding blob 0 at `(10, 10)`, with `newBlobID = 1`,
an empty frame, then a frame with key points at `(13, 14)` and `(500, 0)`. -/
theorem empty_frame_then_all_births_witness :
    Reachable euclid
      { mSurface := true, mKeyPoints := [⟨10, 10, 20⟩], mPrevKeyPoints := [],
        mBlobs := [⟨0, [⟨10, 10, 20⟩]⟩], mMapPrevToCurKeypoints := [-1], newBlobID := 1 } ∧
    -(2 ^ 31) ≤ (1 : Int) ∧ (1 : Int) + ((2 : Nat) : Int) < 2 ^ 31 ∧
    ∃ s2,
      run euclid
        { mSurface := true, mKeyPoints := [⟨10, 10, 20⟩], mPrevKeyPoints := [],
          mBlobs := [⟨0, [⟨10, 10, 20⟩]⟩], mMapPrevToCurKeypoints := [-1], newBlobID := 1 }
        [[], [⟨13, 14, 20⟩, ⟨500, 0, 20⟩]] = some s2 ∧
      s2.mMapPrevToCurKeypoints = [-1, -1] ∧
      s2.mBlobs[0]? = some ⟨1, [⟨13, 14, 20⟩]⟩ ∧ s2.mBlobs[1]? = some ⟨2, [⟨500, 0, 20⟩]⟩ ∧
      s2.mBlobs.length = 2 ∧ s2.newBlobID = 3 ∧ s2.newBlobID < 2 ^ 31 ∧
      ∀ b2 ∈ s2.mBlobs, b2.id ≠ 0 := by
  have hr : Reachable euclid
      { mSurface := true, mKeyPoints := [⟨10, 10, 20⟩], mPrevKeyPoints := [],
        mBlobs := [⟨0, [⟨10, 10, 20⟩]⟩], mMapPrevToCurKeypoints := [-1], newBlobID := 1 } :=
    Reachable.step setup _ [⟨10, 10, 20⟩] Reachable.setup (by
      rw [step_eq]
      simp [setup, closestIndex_nil, updateBlobListLoop, Blob.new])
  have hlo : -(2 ^ 31) ≤ (1 : Int) := by norm_num
  have hhi : (1 : Int) + ((2 : Nat) : Int) < 2 ^ 31 := by norm_num
  obtain ⟨s1, s2, h1, _, _, _, h2, _, hmap, hlen, hpos, hn, _, hlt, _, hfresh⟩ :=
    empty_frame_then_all_births euclid
      { mSurface := true, mKeyPoints := [⟨10, 10, 20⟩], mPrevKeyPoints := [],
        mBlobs := [⟨0, [⟨10, 10, 20⟩]⟩], mMapPrevToCurKeypoints := [-1], newBlobID := 1 }
      [⟨13, 14, 20⟩, ⟨500, 0, 20⟩] hlo hhi
  refine ⟨hr, hlo, hhi, s2, by simp [run, h1, h2], by simpa using hmap, ?_, ?_,
    by simpa using hlen, ?_, hlt, ?_⟩
  · simpa using hpos 0 ⟨13, 14, 20⟩ (by simp)
  · simpa using hpos 1 ⟨500, 0, 20⟩ (by simp)
  · rw [hn]
    norm_num
  · intro b2 hb2
    exact hfresh hr ⟨0, [⟨10, 10, 20⟩]⟩ (by simp) b2 hb2

/-! ## Non-exclusive matching -/

/-- C9. Matching is not exclusive: when the previous frame holds one key point `p`,
carried by the blob `b`, and two current key points are both closer than 100 to `p`,
`blobTracking` gives both the previous index 0, and `updateBlobList` carries the blob
`b` forward twice, with the same id. -/
theorem matching_not_exclusive (distance : KeyPoint → KeyPoint → ℚ) (s : App)
    (p c1 c2 : KeyPoint) (b : Blob)
    (hp : s.mKeyPoints = [p]) (hb : s.mBlobs = [b])
    (h1 : distance c1 p < 100) (h2 : distance c2 p < 100) :
    (blobTracking distance
      (blobDetection { s with mSurface := true } [c1, c2])).mMapPrevToCurKeypoints = [0, 0] ∧
    ∃ s1, step distance s [c1, c2] = some s1 ∧ s1.mMapPrevToCurKeypoints = [0, 0] ∧
      s1.mBlobs = [b.update c1, b.update c2] ∧
      s1.mBlobs.map (fun x => x.id) = [b.id, b.id] ∧ s1.newBlobID = s.newBlobID := by
  constructor
  · simp [blobTracking, blobDetection, hp, closestIndex_single, h1, h2]
  · refine ⟨{ mSurface := true, mKeyPoints := [c1, c2], mPrevKeyPoints := [p],
               mBlobs := [b.update c1, b.update c2], mMapPrevToCurKeypoints := [0, 0],
               newBlobID := s.newBlobID }, ?_, rfl, rfl, rfl, rfl⟩
    rw [step_eq, hp, hb]
    simp [closestIndex_single, h1, h2, updateBlobListLoop]

/-- C9, witness: previous `[(0, 0)]` and current `[(10, 0), (0, 10)]` give the map
`[0, 0]`, and the blob with id 0 is carried forward twice. -/
theorem matching_not_exclusive_witness :
    (blobTracking euclid
      (blobDetection
        { mSurface := true, mKeyPoints := [⟨0, 0, 20⟩], mPrevKeyPoints := [],
          mBlobs := [⟨0, [⟨0, 0, 20⟩]⟩], mMapPrevToCurKeypoints := [-1], newBlobID := 1 }
        [⟨10, 0, 20⟩, ⟨0, 10, 20⟩])).mMapPrevToCurKeypoints = [0, 0] ∧
    ∃ s1,
      step euclid
        { mSurface := true, mKeyPoints := [⟨0, 0, 20⟩], mPrevKeyPoints := [],
          mBlobs := [⟨0, [⟨0, 0, 20⟩]⟩], mMapPrevToCurKeypoints := [-1], newBlobID := 1 }
        [⟨10, 0, 20⟩, ⟨0, 10, 20⟩] = some s1 ∧
      s1.mMapPrevToCurKeypoints = [0, 0] ∧
      s1.mBlobs = [⟨0, [⟨0, 0, 20⟩, ⟨10, 0, 20⟩]⟩, ⟨0, [⟨0, 0, 20⟩, ⟨0, 10, 20⟩]⟩] ∧
      s1.mBlobs.map (fun x => x.id) = [0, 0] ∧ s1.newBlobID = 1 := by
  have h1 : euclid ⟨10, 0, 20⟩ ⟨0, 0, 20⟩ = 10 :=
    euclid_eq_of_sq _ _ 10 (by norm_num) (by norm_num)
  have h2 : euclid ⟨0, 10, 20⟩ ⟨0, 0, 20⟩ = 10 :=
    euclid_eq_of_sq _ _ 10 (by norm_num) (by norm_num)
  exact matching_not_exclusive euclid
    { mSurface := true, mKeyPoints := [⟨0, 0, 20⟩], mPrevKeyPoints := [],
      mBlobs := [⟨0, [⟨0, 0, 20⟩]⟩], mMapPrevToCurKeypoints := [-1], newBlobID := 1 }
    ⟨0, 0, 20⟩ ⟨10, 0, 20⟩ ⟨0, 10, 20⟩ ⟨0, [⟨0, 0, 20⟩]⟩ rfl rfl
    (by rw [h1]; norm_num) (by rw [h2]; norm_num)

/-! ## Alignment of blobs and key points -/

/-- C10. Blobs and key points are aligned in the initial state and after every run of
per-frame steps from it, no step of which fails; `createBlobs` leaves them aligned; and
from every aligned state a step with any list of key points completes without indexing
a vector out of its bounds, leaves the state aligned, builds a map with one entry per
key point, and every entry of the map that is not `-1` is an index into the blobs of
the previous frame. -/
theorem alignment_invariant (distance : KeyPoint → KeyPoint → ℚ) :
    setup.mBlobs.length = setup.mKeyPoints.length ∧
    (∀ frames : List (List KeyPoint), ∃ s, run distance setup frames = some s ∧
      s.mBlobs.length = s.mKeyPoints.length) ∧
    ∀ s : App,
      (createBlobs s).mBlobs.length = (createBlobs s).mKeyPoints.length ∧
      (s.mBlobs.length = s.mKeyPoints.length →
        ∀ detected : List KeyPoint, ∃ s1, step distance s detected = some s1 ∧
          s1.mBlobs.length = s1.mKeyPoints.length ∧
          s1.mMapPrevToCurKeypoints.length = s1.mKeyPoints.length ∧
          ∀ e ∈ s1.mMapPrevToCurKeypoints,
            e = -1 ∨ (0 ≤ e ∧ e.toNat < s.mBlobs.length)) := by
  refine ⟨rfl, ?_, ?_⟩
  · intro frames
    obtain ⟨s, h, hal, _⟩ := run_invariant distance frames setup rfl (by simp [setup])
    exact ⟨s, h, hal⟩
  · intro s
    refine ⟨(createBlobs_spec s).1, ?_⟩
    intro hal detected
    obtain ⟨s1, h1, _, hk, _, hmap, hlen, _, _⟩ := step_spec distance s detected hal
    refine ⟨s1, h1, by rw [hlen, hk], by rw [hmap, hk]; simp, ?_⟩
    intro e he
    rw [hmap] at he
    obtain ⟨c, _, rfl⟩ := List.mem_map.mp he
    rw [hal]
    exact closestIndex_range distance s.mKeyPoints c

/-- C10, witness: from the aligned state holding blob 0 at `(0, 0)`, the step with key
points at `(3, 4)` and `(500, 0)` completes and stays aligned. -/
theorem alignment_invariant_witness :
    ∃ s1,
      step euclid
        { mSurface := true, mKeyPoints := [⟨0, 0, 20⟩], mPrevKeyPoints := [],
          mBlobs := [⟨0, [⟨0, 0, 20⟩]⟩], mMapPrevToCurKeypoints := [-1], newBlobID := 1 }
        [⟨3, 4, 20⟩, ⟨500, 0, 20⟩] = some s1 ∧
      s1.mBlobs.length = s1.mKeyPoints.length ∧
      s1.mMapPrevToCurKeypoints.length = s1.mKeyPoints.length ∧
      ∀ e ∈ s1.mMapPrevToCurKeypoints, e = -1 ∨ (0 ≤ e ∧ e.toNat < 1) :=
  ((alignment_invariant euclid).2.2
    { mSurface := true, mKeyPoints := [⟨0, 0, 20⟩], mPrevKeyPoints := [],
      mBlobs := [⟨0, [⟨0, 0, 20⟩]⟩], mMapPrevToCurKeypoints := [-1], newBlobID := 1 }).2
    rfl [⟨3, 4, 20⟩, ⟨500, 0, 20⟩]

/-! ## Renumbering by `createBlobs` -/

/-- Before the first frame has arrived, a tick without a new frame changes nothing and
sends no message. -/
theorem update_before_first_frame (distance : KeyPoint → KeyPoint → ℚ) (s : App)
    (detected : List KeyPoint) (h : s.mSurface = false) :
    update distance s false detected = some (s, []) := by
  simp [update, h]

/-- Once a frame has arrived, a tick without a new frame runs the whole pipeline, as a
tick with a new frame does. -/
theorem update_after_first_frame (distance : KeyPoint → KeyPoint → ℚ) (s : App)
    (detected : List KeyPoint) (h : s.mSurface = true) :
    update distance s false detected = update distance s true detected := by
  have hs : { s with mSurface := true } = s := by
    cases s
    simp at h
    simp [h]
  simp [update, hs]

/-- C8, the code at the failing input. After a first frame with a key point at
`(0, 0)`, a tick on which the capture reports no new frame, the detector finding the
same key point in the frame it already had: `update` runs the pipeline, so
`mPrevKeyPoints` and the map change, the history of blob 0 grows by one observation,
and one blob message is sent. -/
theorem update_without_new_frame_runs_pipeline :
    run euclid setup [[⟨0, 0, 20⟩]] =
      some { mSurface := true, mKeyPoints := [⟨0, 0, 20⟩], mPrevKeyPoints := [],
             mBlobs := [⟨0, [⟨0, 0, 20⟩]⟩], mMapPrevToCurKeypoints := [-1],
             newBlobID := 1 } ∧
    update euclid
        { mSurface := true, mKeyPoints := [⟨0, 0, 20⟩], mPrevKeyPoints := [],
          mBlobs := [⟨0, [⟨0, 0, 20⟩]⟩], mMapPrevToCurKeypoints := [-1], newBlobID := 1 }
        false [⟨0, 0, 20⟩] =
      some ({ mSurface := true, mKeyPoints := [⟨0, 0, 20⟩], mPrevKeyPoints := [⟨0, 0, 20⟩],
              mBlobs := [⟨0, [⟨0, 0, 20⟩, ⟨0, 0, 20⟩]⟩], mMapPrevToCurKeypoints := [0],
              newBlobID := 1 },
            [{ addr := "/MakeItArt/Blobs", ind := 0, x := 0, y := 0 }]) := by
  have h1 : euclid ⟨0, 0, 20⟩ ⟨0, 0, 20⟩ = 0 :=
    euclid_eq_of_sq _ _ 0 (by norm_num) (by norm_num)
  constructor
  · norm_num [run, step, update, setup, blobDetection, blobTracking, updateBlobList,
      updateBlobListLoop, closestIndex, closestLoop, Blob.new, Blob.update]
  · norm_num [update, blobDetection, blobTracking, updateBlobList,
      updateBlobListLoop, closestIndex, closestLoop, h1, Blob.new, Blob.update, sendBlobs,
      BLOB_OSCADDRESS, Blob.getBlobID, Blob.getCurrX, Blob.getCurrY]

end BlobTrackingApp
